import Mathlib

/-!
Verification of the memory-management core of a small teaching OS:
the hash-sharded disk-block buffer cache (kernel/bio.c) and the per-core
physical-page allocator (kernel/kalloc.c).

The buffer cache is modelled as a shallow embedding: each hash bucket's
doubly-linked list becomes a Lean list ordered from the MRU end (the
sentinel's `next` side, where `brelse` inserts) to the LRU end (the
sentinel's `prev` side, where the free-buffer scans start).  Spinlock and
sleep-lock acquisitions performed by `bget` are recorded in an event trace.
Reference counts are natural numbers; the C `uint` wrap-around of
`refcnt--` at zero is modelled separately with explicit mod-2^32 integers
where a claim depends on it.
-/

namespace XV6

/-! ## Generic list helpers -/

/-- Update the first element satisfying p (the C code mutates the node
found by a head-to-tail scan in place). -/
def updFirst (p : α → Bool) (f : α → α) : List α → List α
  | [] => []
  | a :: l => if p a then f a :: l else a :: updFirst p f l

/-- Update the last element satisfying p (in-place mutation of the node
found by a tail-to-head scan). -/
def updLastP (p : α → Bool) (f : α → α) (l : List α) : List α :=
  (updFirst p f l.reverse).reverse

/-- Remove the last element satisfying p (unlinking the node found by a
tail-to-head scan). -/
def removeLastP (p : α → Bool) (l : List α) : List α :=
  (l.reverse.eraseP p).reverse

/-! ## Buffer cache model (kernel/bio.c)

A buffer carries the fields of struct buf that the cache logic reads or
writes: device, block number, validity flag and reference count, plus
bid, the identity of the underlying node (its index in bcache.buf),
standing in for the node's address.  The data payload and the sleep lock
are modelled separately where a claim needs them. -/

/-- NBUCKETS from bio.c line 26. -/
def NBUCKETS : Nat := 13

/-- NBUF buffers in the pool.  Modelled from the spec: param.h is not part
of the core sources; the spec fixes NBUF = 30 for its scenarios. -/
def NBUF : Nat := 30

structure Buf where
  bid : Nat
  dev : Nat
  blockno : Nat
  valid : Bool
  refcnt : Nat
deriving DecidableEq, Repr

/-- A bucket index. -/
abbrev BKey := Fin NBUCKETS

/-- The cache state: each bucket's doubly-linked list as a Lean list,
ordered from the sentinel's next side (MRU end, where brelse inserts)
to the sentinel's prev side (LRU end, where the free scans start). -/
abbrev BState := BKey → List Buf

/-- hash from bio.c line 39. -/
def hash (n : Nat) : BKey := ⟨n % NBUCKETS, Nat.mod_lt n (by decide)⟩

/-- The match test of the cached-block scan (bio.c line 82). -/
def matchP (dev blockno : Nat) (b : Buf) : Bool :=
  b.dev == dev && b.blockno == blockno

/-- The free-buffer test (bio.c lines 92 and 113). -/
def freeP (b : Buf) : Bool := b.refcnt == 0

/-- The node-identity test used to model pointer equality. -/
def bidP (n : Nat) (b : Buf) : Bool := b.bid == n

/-- The field assignments of a cache-miss repurpose
(bio.c lines 93-96 and 115-118). -/
def repurpose (dev blockno : Nat) (b : Buf) : Buf :=
  { b with dev := dev, blockno := blockno, valid := false, refcnt := 1 }

/-- Lock events emitted by bget: bucket spinlock acquire/release, the
global overall_lock acquire/release, and a buffer's sleep-lock acquire. -/
inductive LockEv where
  | acqB (i : BKey)
  | relB (i : BKey)
  | acqG
  | relG
  | acqS (bid : Nat)
deriving DecidableEq, Repr

/-- The bucket probe order of the cross-bucket search
(bio.c lines 108-109: i = 0..NBUCKETS-1, skipping key). -/
def otherBuckets (key : BKey) : List BKey :=
  (List.finRange NBUCKETS).filter (fun i => i != key)

/-- The cross-bucket search of bget (bio.c lines 108-139), run while the
global lock is held: probe the buckets in order; at the first bucket
whose tail-to-head scan finds a refcnt == 0 buffer, repurpose it, unlink
it from that bucket and splice it in at the LRU end of bucket key.
Returns the chosen buffer's identity, the new state and the trace of
bucket-lock events. -/
def searchOther (dev blockno : Nat) (key : BKey) (s : BState) :
    List BKey → Option Nat × BState × List LockEv
  | [] => (none, s, [])
  | i :: rest =>
    match (s i).reverse.find? freeP with
    | some b =>
      let s1 := Function.update s i (removeLastP freeP (s i))
      let s2 := Function.update s1 key (s1 key ++ [repurpose dev blockno b])
      (some b.bid, s2, [LockEv.acqB i, LockEv.acqB key, LockEv.relB key, LockEv.relB i])
    | none =>
      let out := searchOther dev blockno key s rest
      (out.1, out.2.1, LockEv.acqB i :: LockEv.relB i :: out.2.2)

/-- bget (bio.c lines 74-143).  Result: the returned buffer's identity
(none models the panic at line 142), the new cache state, and the trace
of lock events.  The hit scan (line 81) runs head to tail; the free scans
(lines 91 and 112) run tail to head. -/
def bget (dev blockno : Nat) (s : BState) :
    Option Nat × BState × List LockEv :=
  let key := hash blockno
  match (s key).find? (matchP dev blockno) with
  | some b =>
    (some b.bid,
     Function.update s key
       (updFirst (matchP dev blockno) (fun x => { x with refcnt := x.refcnt + 1 }) (s key)),
     [LockEv.acqB key, LockEv.relB key, LockEv.acqS b.bid])
  | none =>
    match (s key).reverse.find? freeP with
    | some b =>
      (some b.bid,
       Function.update s key (updLastP freeP (repurpose dev blockno) (s key)),
       [LockEv.acqB key, LockEv.relB key, LockEv.acqS b.bid])
    | none =>
      let out := searchOther dev blockno key s (otherBuckets key)
      match out.1 with
      | some bid =>
        (some bid, out.2.1,
         [LockEv.acqB key, LockEv.relB key, LockEv.acqG] ++ out.2.2 ++ [LockEv.relG, LockEv.acqS bid])
      | none =>
        (none, out.2.1,
         [LockEv.acqB key, LockEv.relB key, LockEv.acqG] ++ out.2.2 ++ [LockEv.relG])

/-- All buffers of the cache, bucket by bucket. -/
def allB (s : BState) : List Buf := (List.finRange NBUCKETS).flatMap s

/-- Dereference a buffer pointer: the unique node with this identity. -/
def findBuf (bid : Nat) (s : BState) : Option Buf := (allB s).find? (bidP bid)

/-- In-place field update of the node bid, wherever it is linked
(a pointer-mediated mutation of one struct buf). -/
def mapBuf (bid : Nat) (f : Buf → Buf) (s : BState) : BState :=
  fun i => (s i).map (fun b => if bidP bid b then f b else b)

/-- Unlink the node bid from its bucket list (the pointer surgery of
bio.c lines 177-178). -/
def eraseBuf (bid : Nat) (s : BState) : BState :=
  fun i => (s i).eraseP (bidP bid)

/-- The list/refcnt mutation of brelse, performed under the bucket lock
computed from the buffer's current blockno (bio.c lines 172-184):
decrement refcnt; if it reaches zero, move the node to the MRU end of
bucket hash(blockno).  The decrement is exact here because the step
relation only fires it with refcnt > 0 (the caller holds the buffer); the
C uint wrap of refcnt-- at 0 is modelled by udecC below. -/
def brelseStep (bid : Nat) (s : BState) : BState :=
  match findBuf bid s with
  | none => s
  | some b =>
    let key := hash b.blockno
    if b.refcnt = 1 then
      Function.update (eraseBuf bid s) key
        ({ b with refcnt := 0 } :: (eraseBuf bid s) key)
    else
      mapBuf bid (fun x => { x with refcnt := x.refcnt - 1 }) s

/-- bpin (bio.c lines 187-192): increment refcnt under the bucket lock
computed from hash(blockno). -/
def bpinStep (bid : Nat) (s : BState) : BState :=
  mapBuf bid (fun x => { x with refcnt := x.refcnt + 1 }) s

/-- bunpin (bio.c lines 194-199): decrement refcnt under the bucket lock
computed from hash(blockno).  Exact subtraction, as for brelseStep. -/
def bunpinStep (bid : Nat) (s : BState) : BState :=
  mapBuf bid (fun x => { x with refcnt := x.refcnt - 1 }) s

/-- The valid := 1 assignment of bread after its device read
(bio.c line 152). -/
def setValidStep (bid : Nat) (s : BState) : BState :=
  mapBuf bid (fun x => { x with valid := true }) s

/-- binit (bio.c lines 44-69): buffer i (zero-initialized as a C global:
dev = 0, blockno = 0, valid = 0, refcnt = 0) is pushed at the head of
bucket hash(i), for i = 0 .. NBUF-1 in order. -/
def binitState : BState :=
  fun k => (((List.range NBUF).filter (fun i => i % NBUCKETS == k.val)).reverse).map
    (fun i => { bid := i, dev := 0, blockno := 0, valid := false, refcnt := 0 })

/-- Device operations issued by bread/bwrite. -/
inductive DiskOp where
  | read (dev blockno : Nat)
  | write (dev blockno : Nat)
deriving DecidableEq, Repr

/-- bread (bio.c lines 146-155): bget, then a synchronous device read
when the buffer is not valid.  Result: returned buffer identity (none
models bget's panic), new state, device operations issued. -/
def bread (dev blockno : Nat) (s : BState) :
    Option Nat × BState × List DiskOp :=
  match bget dev blockno s with
  | (none, s1, _) => (none, s1, [])
  | (some bid, s1, _) =>
    match findBuf bid s1 with
    | some b =>
      if b.valid then (some bid, s1, [])
      else (some bid, setValidStep bid s1, [DiskOp.read b.dev b.blockno])
    | none => (some bid, s1, [])

/-! ### Sleep-lock contract of bwrite and brelse -/

/-- A buffer's exclusive-use sleep lock: held flag and holder pid
(sleeplock.h). -/
structure SleepLock where
  locked : Bool
  pid : Nat
deriving DecidableEq, Repr

/-- holdingsleep: the lock is held, by the calling process. -/
def holdingsleep (lk : SleepLock) (mypid : Nat) : Bool :=
  lk.locked && lk.pid == mypid

/-- releasesleep: clear the holder. -/
def releasesleep : SleepLock := { locked := false, pid := 0 }

/-- bwrite (bio.c lines 158-162): without the sleep lock held by the
caller, panic (modelled as none); otherwise exactly one synchronous
device write of the buffer's block. -/
def bwrite (mypid : Nat) (lk : SleepLock) (b : Buf) : Option (List DiskOp) :=
  if holdingsleep lk mypid then some [DiskOp.write b.dev b.blockno] else none

/-- brelse (bio.c lines 166-185): without the sleep lock held by the
caller, panic (none); otherwise release the sleep lock and perform the
bucket-list mutation brelseStep. -/
def brelseOp (mypid : Nat) (lk : SleepLock) (bid : Nat) (s : BState) :
    Option (SleepLock × BState) :=
  if holdingsleep lk mypid then some (releasesleep, brelseStep bid s) else none

/-! ### Step relation of the cache

One step per externally visible cache operation, each executed atomically
under the locks the code takes.  The preconditions on brelse, bpin and
bunpin are the caller contract stated by the interface comments of bio.c
(the buffer was obtained from bread and is still held/pinned, so its
refcnt is positive and the pointer is valid). -/

inductive Step : BState → BState → Prop where
  | doGet (dev blockno : Nat) (s : BState)
      (h : (bget dev blockno s).1 ≠ none) :
      Step s (bget dev blockno s).2.1
  | doValid (bid : Nat) (s : BState) (b : Buf)
      (hb : findBuf bid s = some b) (hr : 0 < b.refcnt) :
      Step s (setValidStep bid s)
  | doRelse (bid : Nat) (s : BState) (b : Buf)
      (hb : findBuf bid s = some b) (hr : 0 < b.refcnt) :
      Step s (brelseStep bid s)
  | doPin (bid : Nat) (s : BState) (b : Buf)
      (hb : findBuf bid s = some b) (hr : 0 < b.refcnt) :
      Step s (bpinStep bid s)
  | doUnpin (bid : Nat) (s : BState) (b : Buf)
      (hb : findBuf bid s = some b) (hr : 0 < b.refcnt) :
      Step s (bunpinStep bid s)

/-- Cache states reachable from the initialized cache. -/
inductive Reach : BState → Prop where
  | init : Reach binitState
  | step {s s' : BState} : Reach s → Step s s' → Reach s'

/-! ### Cache invariants -/

/-- Number of nodes with identity n in the whole cache. -/
def cnt (n : Nat) (s : BState) : Nat :=
  ∑ i : BKey, (s i).countP (bidP n)

/-- Each node is linked into exactly one bucket list at one position
(pointer-structure soundness). -/
def uniqOK (s : BState) : Prop := ∀ n : Nat, cnt n s ≤ 1

/-- Every in-use buffer is linked in the bucket its current blockno
hashes to. -/
def homeOK (s : BState) : Prop :=
  ∀ (i : BKey), ∀ b ∈ s i, 0 < b.refcnt → hash b.blockno = i

/-- Every in-use buffer is the first buffer of its bucket matching its
own (dev, blockno) identity: the hit scan of bget finds exactly it. -/
def firstOK (s : BState) : Prop :=
  ∀ (i : BKey), ∀ x ∈ s i, 0 < x.refcnt →
    (s i).find? (matchP x.dev x.blockno) = some x

def Inv (s : BState) : Prop := uniqOK s ∧ homeOK s ∧ firstOK s

/-! ## refcnt arithmetic as 32-bit unsigned (for the refcnt claims)

struct buf's refcnt is a C uint.  The per-buffer refcnt updates performed
by the five operations are: bread on a hit increments it (bio.c line 83),
bread on a miss repurposes the buffer and sets it to 1 (lines 96, 118),
brelse decrements it (line 174), bpin increments it (line 190), bunpin
decrements it (line 197) - all in 32-bit unsigned arithmetic. -/

def UINTMOD : Int := 4294967296

/-- C uint increment. -/
def uincC (r : Int) : Int := (r + 1) % UINTMOD

/-- C uint decrement: wraps to 2^32 - 1 at zero. -/
def udecC (r : Int) : Int := (r - 1) % UINTMOD

inductive RefcntOp where
  | breadHit
  | breadAlloc
  | brelse
  | bpin
  | bunpin
deriving DecidableEq, Repr

/-- Effect of one operation on one buffer's stored refcnt. -/
def refcntEffect : RefcntOp → Int → Int
  | RefcntOp.breadHit, r => uincC r
  | RefcntOp.breadAlloc, _ => 1
  | RefcntOp.brelse, r => udecC r
  | RefcntOp.bpin, r => uincC r
  | RefcntOp.bunpin, r => udecC r

/-- Stored refcnt of one buffer after a sequence of operations on it. -/
def runRefcnt (ops : List RefcntOp) (r : Int) : Int :=
  ops.foldl (fun a op => refcntEffect op a) r

/-! ## Page allocator model (kernel/kalloc.c)

One free list per core, as a list of page addresses (head = list head).
Physical memory is a byte map.  endAddr and physTop stand for the linker
symbol end (first address past the kernel image) and PHYSTOP. -/

/-- PGSIZE (riscv.h): 4096-byte pages. -/
def PGSIZE : Nat := 4096

/-- Physical memory as a byte map. -/
abbrev Mem := Nat → Nat

/-- memset(pa, v, n). -/
def memset (m : Mem) (a v n : Nat) : Mem :=
  fun x => if a ≤ x ∧ x < a + n then v else m x

/-- The per-core free lists (kmems array); index = core id. -/
abbrev KState := List (List Nat)

/-- The stealing loop of kalloc (kalloc.c lines 94-106): probe the given
core ids in order; pop the head of the first non-empty list. -/
def stealLoop (s : KState) : List Nat → Option (Nat × KState)
  | [] => none
  | i :: rest =>
    match s.getD i [] with
    | r :: tail => some (r, s.set i tail)
    | [] => stealLoop s rest

/-- kalloc (kalloc.c lines 79-112), running on core id: pop the head of
the local list; if empty, steal from the other cores in index order;
fill any obtained page with the allocation sentinel byte 5 (line 110);
return none ("no memory") if every list is empty. -/
def kalloc (id : Nat) (s : KState) (m : Mem) : Option Nat × KState × Mem :=
  match s.getD id [] with
  | r :: rest => (some r, s.set id rest, memset m r 5 PGSIZE)
  | [] =>
    match stealLoop s ((List.range s.length).filter (fun i => i != id)) with
    | some (r, s2) => (some r, s2, memset m r 5 PGSIZE)
    | none => (none, s, m)

/-- kfree (kalloc.c lines 52-73), running on core id: panic (none) iff
pa is not page-aligned, below the kernel image end, or at/above PHYSTOP
(line 57); otherwise fill the page with the free sentinel byte 1
(line 61) and push it onto the freeing core's own list. -/
def kfree (endAddr physTop id pa : Nat) (s : KState) (m : Mem) :
    Option (KState × Mem) :=
  if pa % PGSIZE ≠ 0 ∨ pa < endAddr ∨ physTop ≤ pa then none
  else some (s.set id (pa :: s.getD id []), memset m pa 1 PGSIZE)

/-- Total number of free pages over all cores. -/
def totalFree (s : KState) : Nat := (s.map List.length).sum

/-- Every page in every free list is page-aligned and inside the managed
range: established by kinit/freerange and preserved by the operations. -/
def ValidPages (endAddr physTop : Nat) (s : KState) : Prop :=
  ∀ l ∈ s, ∀ pa ∈ l, pa % PGSIZE = 0 ∧ endAddr ≤ pa ∧ pa < physTop

/-- One matched allocate/free pair: core c.1 calls kalloc; if a page is
obtained, core c.2 frees that same page. -/
def pairStep (endAddr physTop : Nat) (sm : KState × Mem) (c : Nat × Nat) :
    KState × Mem :=
  match kalloc c.1 sm.1 sm.2 with
  | (none, s1, m1) => (s1, m1)
  | (some r, s1, m1) =>
    match kfree endAddr physTop c.2 r s1 m1 with
    | some (s2, m2) => (s2, m2)
    | none => (s1, m1)

/-- A sequence of matched allocate/free pairs. -/
def runPairs (endAddr physTop : Nat) (sm : KState × Mem)
    (cs : List (Nat × Nat)) : KState × Mem :=
  cs.foldl (pairStep endAddr physTop) sm

/-! ## Concrete states used by individual witnesses and counterexamples -/

/-- A cache state whose only buffer is busy and caches block (1, 0):
every buffer in every bucket has refcnt > 0, yet bget(1, 0) is a hit. -/
def c2state : BState :=
  fun i => if i.val = 0 then [{ bid := 0, dev := 1, blockno := 0, valid := true, refcnt := 1 }] else []

/-- A cache state whose only buffer is busy and caches block (7, 13):
every buffer has refcnt > 0 and a request for block (1, 0) misses. -/
def c2wit : BState :=
  fun i => if i.val = 0 then [{ bid := 0, dev := 7, blockno := 13, valid := true, refcnt := 2 }] else []

/-- A cache state forcing a migration: bucket 0 holds one busy buffer,
bucket 1 holds one free buffer; bget(1, 0) must migrate it. -/
def c4state : BState :=
  fun i =>
    if i.val = 0 then [{ bid := 0, dev := 1, blockno := 13, valid := false, refcnt := 1 }]
    else if i.val = 1 then [{ bid := 1, dev := 9, blockno := 9, valid := false, refcnt := 0 }]
    else []

/-- A cache state forcing a migration with two empty buckets probed
first: bget(7, 2) finds no match and no free buffer in bucket 2, probes
buckets 0 and 1 in vain, and migrates the free buffer of bucket 3. -/
def c4wit : BState :=
  fun i =>
    if i.val = 2 then [{ bid := 5, dev := 2, blockno := 2, valid := true, refcnt := 3 }]
    else if i.val = 3 then [{ bid := 6, dev := 3, blockno := 16, valid := false, refcnt := 0 }]
    else []

/-! ## Generic list lemmas -/

theorem updFirst_append (p : α → Bool) (f : α → α) (l1 l2 : List α) (b : α)
    (h1 : ∀ y ∈ l1, p y = false) (hb : p b = true) :
    updFirst p f (l1 ++ b :: l2) = l1 ++ f b :: l2 := by
  induction l1 with
  | nil => simp [updFirst, hb]
  | cons a t ih =>
    have ha : p a = false := h1 a (by simp)
    simp [updFirst, ha]
    exact ih (fun y hy => h1 y (by simp [hy]))

theorem find?_append_cons (p : α → Bool) (l1 l2 : List α) (b : α)
    (h1 : ∀ y ∈ l1, p y = false) (hb : p b = true) :
    (l1 ++ b :: l2).find? p = some b := by
  induction l1 with
  | nil => simp [List.find?_cons_of_pos _ hb]
  | cons a t ih =>
    have ha : p a = false := h1 a (by simp)
    rw [List.cons_append, List.find?_cons_of_neg _ (by simp [ha])]
    exact ih (fun y hy => h1 y (by simp [hy]))

/-- Splitting view of a successful find?: the list decomposes at the first
match. -/
theorem find?_split {p : α → Bool} {l : List α} {b : α}
    (h : l.find? p = some b) :
    ∃ l1 l2, l = l1 ++ b :: l2 ∧ p b = true ∧ ∀ y ∈ l1, p y = false := by
  rcases List.find?_eq_some.mp h with ⟨hb, l1, l2, hl, hfront⟩
  exact ⟨l1, l2, hl, hb, fun y hy => by simpa using hfront y hy⟩

/-- Splitting view of a successful find? on the reverse: the list
decomposes at the last match, with no match after it. -/
theorem find?_reverse_split {p : α → Bool} {l : List α} {b : α}
    (h : l.reverse.find? p = some b) :
    ∃ l1 l2, l = l1 ++ b :: l2 ∧ p b = true ∧ ∀ y ∈ l2, p y = false := by
  rcases find?_split h with ⟨r1, r2, hl, hb, hfront⟩
  refine ⟨r2.reverse, r1.reverse, ?_, hb, fun y hy => hfront y (by simpa using hy)⟩
  have := congrArg List.reverse hl
  simpa using this

/-- updLastP rewrites the decomposition at the last match. -/
theorem updLastP_append (p : α → Bool) (f : α → α) (l1 l2 : List α) (b : α)
    (h2 : ∀ y ∈ l2, p y = false) (hb : p b = true) :
    updLastP p f (l1 ++ b :: l2) = l1 ++ f b :: l2 := by
  unfold updLastP
  rw [show (l1 ++ b :: l2).reverse = l2.reverse ++ b :: l1.reverse by simp,
      updFirst_append p f _ _ b (fun y hy => h2 y (by simpa using hy)) hb]
  simp

/-- removeLastP removes exactly the element at the last-match
decomposition. -/
theorem removeLastP_append (p : α → Bool) (l1 l2 : List α) (b : α)
    (h2 : ∀ y ∈ l2, p y = false) (hb : p b = true) :
    removeLastP p (l1 ++ b :: l2) = l1 ++ l2 := by
  unfold removeLastP
  rw [show (l1 ++ b :: l2).reverse = l2.reverse ++ b :: l1.reverse by simp]
  rw [List.eraseP_append_right _ (by simpa using fun y hy => by simp [h2 y hy])]
  simp [List.eraseP_cons_of_pos hb]

/-- Two decompositions of one list around chosen elements: either they
pick the same position, or one element lies strictly inside the other's
tail or front. -/
theorem split_trichotomy {l1 l2 m1 m2 : List α} {b x : α}
    (h : l1 ++ b :: l2 = m1 ++ x :: m2) :
    (l1 = m1 ∧ b = x ∧ l2 = m2) ∨
    (∃ k, m1 = l1 ++ b :: k ∧ l2 = k ++ x :: m2) ∨
    (∃ k, l1 = m1 ++ x :: k ∧ m2 = k ++ b :: l2) := by
  induction l1 generalizing m1 with
  | nil =>
    cases m1 with
    | nil => simp_all
    | cons c t =>
      simp only [List.nil_append, List.cons_append, List.cons.injEq] at h
      exact Or.inr (Or.inl ⟨t, by simp [h.1, h.2], h.2⟩)
  | cons a s ih =>
    cases m1 with
    | nil =>
      simp only [List.cons_append, List.nil_append, List.cons.injEq] at h
      exact Or.inr (Or.inr ⟨s, by simp [h.1], h.2.symm⟩)
    | cons c t =>
      simp only [List.cons_append, List.cons.injEq] at h
      rcases ih h.2 with h3 | ⟨k, hk1, hk2⟩ | ⟨k, hk1, hk2⟩
      · exact Or.inl ⟨by simp [h.1, h3.1], h3.2.1, h3.2.2⟩
      · exact Or.inr (Or.inl ⟨k, by simp [h.1, hk1], hk2⟩)
      · exact Or.inr (Or.inr ⟨k, by simp [h.1, hk1], hk2⟩)

/-- Replacing one element of a list by a non-matching one preserves the
result of a find? that returned a different element. -/
theorem find?_replace_pres (p : α → Bool) {l l1 l2 : List α} {b c x : α}
    (hl : l = l1 ++ b :: l2) (hx : l.find? p = some x) (hbx : b ≠ x)
    (hc : p c = false) :
    (l1 ++ c :: l2).find? p = some x := by
  rcases find?_split hx with ⟨m1, m2, hm, hpx, hfront⟩
  rcases split_trichotomy (hl ▸ hm : l1 ++ b :: l2 = m1 ++ x :: m2) with
    h3 | ⟨k, hk1, hk2⟩ | ⟨k, hk1, hk2⟩
  · exact absurd h3.2.1 hbx
  · -- x lies inside l2: front of the rebuilt list is still match-free
    rw [hk2]
    rw [show l1 ++ c :: (k ++ x :: m2) = (l1 ++ c :: k) ++ x :: m2 by simp]
    refine find?_append_cons p _ _ x ?_ hpx
    intro y hy
    simp only [List.mem_append, List.mem_cons] at hy
    rcases hy with h | h | h
    · exact hfront y (by simp [hk1, h])
    · simpa [h] using hc
    · exact hfront y (by simp [hk1, h])
  · -- b lies inside m2: the front up to x is untouched
    rw [hk1]
    rw [show (m1 ++ x :: k) ++ c :: l2 = m1 ++ x :: (k ++ c :: l2) by simp]
    exact find?_append_cons p _ _ x hfront hpx

/-- Removing one element of a list preserves the result of a find? that
returned a different element. -/
theorem find?_remove_pres (p : α → Bool) {l l1 l2 : List α} {b x : α}
    (hl : l = l1 ++ b :: l2) (hx : l.find? p = some x) (hbx : b ≠ x) :
    (l1 ++ l2).find? p = some x := by
  rcases find?_split hx with ⟨m1, m2, hm, hpx, hfront⟩
  rcases split_trichotomy (hl ▸ hm : l1 ++ b :: l2 = m1 ++ x :: m2) with
    h3 | ⟨k, hk1, hk2⟩ | ⟨k, hk1, hk2⟩
  · exact absurd h3.2.1 hbx
  · rw [hk2]
    rw [show l1 ++ (k ++ x :: m2) = (l1 ++ k) ++ x :: m2 by simp]
    refine find?_append_cons p _ _ x ?_ hpx
    intro y hy
    simp only [List.mem_append] at hy
    rcases hy with h | h
    · exact hfront y (by simp [hk1, h])
    · exact hfront y (by simp [hk1, h])
  · rw [hk1]
    rw [show (m1 ++ x :: k) ++ l2 = m1 ++ x :: (k ++ l2) by simp]
    exact find?_append_cons p _ _ x hfront hpx

/-- Appending a non-matching element at the tail preserves a successful
find?. -/
theorem find?_append_end_pres (p : α → Bool) {l : List α} {x : α} (c : α)
    (hx : l.find? p = some x) :
    (l ++ [c]).find? p = some x := by
  rcases find?_split hx with ⟨m1, m2, hm, hpx, hfront⟩
  rw [hm, show (m1 ++ x :: m2) ++ [c] = m1 ++ x :: (m2 ++ [c]) by simp]
  exact find?_append_cons p _ _ x hfront hpx

/-! ## Characterization of searchOther and bget -/

/-- When every probed bucket is free of reusable buffers, the cross-bucket
search fails, leaves the state unchanged, and its trace is the probe
lock/unlock sequence. -/
theorem searchOther_all_busy (dev blockno : Nat) (key : BKey) (s : BState)
    (L : List BKey) (h : ∀ j ∈ L, (s j).reverse.find? freeP = none) :
    searchOther dev blockno key s L =
      (none, s, L.flatMap (fun j => [LockEv.acqB j, LockEv.relB j])) := by
  induction L with
  | nil => simp [searchOther]
  | cons i rest ih =>
    have hi := h i (by simp)
    simp only [searchOther, hi]
    rw [ih (fun j hj => h j (by simp [hj]))]
    simp

/-- A successful cross-bucket search decomposes the probe list at the
first bucket holding a reusable buffer and yields the migration state and
the nested-lock trace. -/
theorem searchOther_split (dev blockno : Nat) (key : BKey) (s : BState)
    (L : List BKey) (bid : Nat)
    (h : (searchOther dev blockno key s L).1 = some bid) :
    ∃ pre i rest b, L = pre ++ i :: rest ∧
      (∀ j ∈ pre, (s j).reverse.find? freeP = none) ∧
      (s i).reverse.find? freeP = some b ∧ bid = b.bid ∧
      searchOther dev blockno key s L =
        (some b.bid,
         Function.update (Function.update s i (removeLastP freeP (s i))) key
           ((Function.update s i (removeLastP freeP (s i))) key ++ [repurpose dev blockno b]),
         (pre.flatMap (fun j => [LockEv.acqB j, LockEv.relB j])) ++
           [LockEv.acqB i, LockEv.acqB key, LockEv.relB key, LockEv.relB i]) := by
  induction L with
  | nil => simp [searchOther] at h
  | cons i0 rest ih =>
    cases hfind : (s i0).reverse.find? freeP with
    | some b0 =>
      have hbid : bid = b0.bid := by
        simp [searchOther, hfind] at h
        omega
      exact ⟨[], i0, rest, b0, by simp, by simp, hfind, hbid, by
        simp [searchOther, hfind]⟩
    | none =>
      have h2 : (searchOther dev blockno key s rest).1 = some bid := by
        simpa [searchOther, hfind] using h
      rcases ih h2 with ⟨pre, i, rest2, b, hL, hpre, hfound, hbid, heq⟩
      refine ⟨i0 :: pre, i, rest2, b, by simp [hL], ?_, hfound, hbid, ?_⟩
      · intro j hj
        rcases List.mem_cons.mp hj with rfl | hj2
        · exact hfind
        · exact hpre j hj2
      · simp only [searchOther, hfind]
        rw [heq]
        simp

/-- bget on a hit (bio.c lines 81-88). -/
theorem bget_hit (dev blockno : Nat) (s : BState) (b : Buf)
    (h : (s (hash blockno)).find? (matchP dev blockno) = some b) :
    bget dev blockno s =
      (some b.bid,
       Function.update s (hash blockno)
         (updFirst (matchP dev blockno) (fun x => { x with refcnt := x.refcnt + 1 })
           (s (hash blockno))),
       [LockEv.acqB (hash blockno), LockEv.relB (hash blockno), LockEv.acqS b.bid]) := by
  simp only [bget, h]

/-- bget on a miss with a reusable buffer in the home bucket
(bio.c lines 91-101). -/
theorem bget_local (dev blockno : Nat) (s : BState) (b : Buf)
    (hm : (s (hash blockno)).find? (matchP dev blockno) = none)
    (hf : (s (hash blockno)).reverse.find? freeP = some b) :
    bget dev blockno s =
      (some b.bid,
       Function.update s (hash blockno)
         (updLastP freeP (repurpose dev blockno) (s (hash blockno))),
       [LockEv.acqB (hash blockno), LockEv.relB (hash blockno), LockEv.acqS b.bid]) := by
  simp only [bget, hm, hf]

/-- bget on a miss with no reusable buffer in the home bucket and a
successful cross-bucket search (bio.c lines 103-139). -/
theorem bget_global_some (dev blockno : Nat) (s : BState) (bid : Nat)
    (hm : (s (hash blockno)).find? (matchP dev blockno) = none)
    (hf : (s (hash blockno)).reverse.find? freeP = none)
    (hs : (searchOther dev blockno (hash blockno) s (otherBuckets (hash blockno))).1 = some bid) :
    bget dev blockno s =
      (some bid,
       (searchOther dev blockno (hash blockno) s (otherBuckets (hash blockno))).2.1,
       [LockEv.acqB (hash blockno), LockEv.relB (hash blockno), LockEv.acqG] ++
         (searchOther dev blockno (hash blockno) s (otherBuckets (hash blockno))).2.2 ++
         [LockEv.relG, LockEv.acqS bid]) := by
  simp only [bget, hm, hf, hs]

/-- bget on a miss with no reusable buffer anywhere: the panic path
(bio.c line 142), with the state unchanged up to the halt. -/
theorem bget_global_none (dev blockno : Nat) (s : BState)
    (hm : (s (hash blockno)).find? (matchP dev blockno) = none)
    (hf : (s (hash blockno)).reverse.find? freeP = none)
    (hs : (searchOther dev blockno (hash blockno) s (otherBuckets (hash blockno))).1 = none) :
    bget dev blockno s =
      (none,
       (searchOther dev blockno (hash blockno) s (otherBuckets (hash blockno))).2.1,
       [LockEv.acqB (hash blockno), LockEv.relB (hash blockno), LockEv.acqG] ++
         (searchOther dev blockno (hash blockno) s (otherBuckets (hash blockno))).2.2 ++
         [LockEv.relG]) := by
  simp only [bget, hm, hf, hs]

/-! ## Counting and uniqueness helpers -/

theorem cnt_update (n : Nat) (s : BState) (k : BKey) (L : List Buf) :
    cnt n (Function.update s k L) + (s k).countP (bidP n) =
      cnt n s + L.countP (bidP n) := by
  unfold cnt
  have h1 : ∀ i : BKey, (Function.update s k L i).countP (bidP n) =
      Function.update (fun j => (s j).countP (bidP n)) k (L.countP (bidP n)) i := by
    intro i
    by_cases h : i = k
    · subst h; simp
    · simp [Function.update_noteq h]
  rw [Finset.sum_congr rfl (fun i _ => h1 i),
      Finset.sum_update_of_mem (Finset.mem_univ k),
      ← Finset.add_sum_erase _ (fun j => (s j).countP (bidP n)) (Finset.mem_univ k),
      Finset.erase_eq]
  omega

theorem cnt_ge_bucket (n : Nat) (s : BState) (i : BKey) :
    (s i).countP (bidP n) ≤ cnt n s := by
  unfold cnt
  rw [← Finset.add_sum_erase _ (fun j => (s j).countP (bidP n)) (Finset.mem_univ i)]
  exact Nat.le_add_right _ _

theorem cnt_pair_le (n : Nat) (s : BState) {i j : BKey} (hij : i ≠ j) :
    (s i).countP (bidP n) + (s j).countP (bidP n) ≤ cnt n s := by
  unfold cnt
  have h2 : ∑ x ∈ ({i, j} : Finset BKey), (s x).countP (bidP n) ≤
      ∑ x : BKey, (s x).countP (bidP n) :=
    Finset.sum_le_sum_of_subset (Finset.subset_univ _)
  rw [Finset.sum_pair hij] at h2
  exact h2

theorem two_le_countP {p : Buf → Bool} {l : List Buf} {b y : Buf}
    (hb : b ∈ l) (hy : y ∈ l) (hne : b ≠ y)
    (pb : p b = true) (py : p y = true) : 2 ≤ l.countP p := by
  rcases List.append_of_mem hb with ⟨u, v, rfl⟩
  rcases List.mem_append.mp hy with hyu | hyv
  · have h1 : 0 < u.countP p := List.countP_pos_iff.mpr ⟨y, hyu, py⟩
    have h2 : 0 < (b :: v).countP p := List.countP_pos_iff.mpr ⟨b, by simp, pb⟩
    rw [List.countP_append]; omega
  · rcases List.mem_cons.mp hyv with rfl | hyv2
    · exact absurd rfl hne
    · have h2 : 0 < v.countP p := List.countP_pos_iff.mpr ⟨y, hyv2, py⟩
      rw [List.countP_append, List.countP_cons_of_pos _ _ pb]; omega

/-- Under uniqOK, the bucket holding a node contains no second node with
its identity. -/
theorem uniq_value_eq {s : BState} (hu : uniqOK s) {i j : BKey}
    {b y : Buf} (hb : b ∈ s i) (hy : y ∈ s j) (hbid : y.bid = b.bid) :
    b = y := by
  by_contra hne
  have pb : bidP b.bid b = true := by simp [bidP]
  have py : bidP b.bid y = true := by simp [bidP, hbid]
  by_cases hij : i = j
  · subst hij
    have := two_le_countP hb hy hne pb py
    have := cnt_ge_bucket b.bid s i
    have := hu b.bid
    omega
  · have h1 : 0 < (s i).countP (bidP b.bid) := List.countP_pos_iff.mpr ⟨b, hb, pb⟩
    have h2 : 0 < (s j).countP (bidP b.bid) := List.countP_pos_iff.mpr ⟨y, hy, py⟩
    have := cnt_pair_le b.bid s hij
    have := hu b.bid
    omega

/-- Under uniqOK, buckets other than the one holding a node contain no
node with its identity. -/
theorem uniq_no_other {s : BState} (hu : uniqOK s) {i : BKey} {b : Buf}
    (hb : b ∈ s i) {j : BKey} (hij : j ≠ i) :
    ∀ y ∈ s j, bidP b.bid y = false := by
  intro y hy
  by_contra hcon
  have py : bidP b.bid y = true := by
    cases hq : bidP b.bid y with
    | true => rfl
    | false => exact absurd hq hcon
  have hbid : y.bid = b.bid := by simpa [bidP] using py
  have := uniq_value_eq hu hb hy hbid
  subst this
  have h1 : 0 < (s i).countP (bidP b.bid) :=
    List.countP_pos_iff.mpr ⟨b, hb, by simp [bidP]⟩
  have h2 : 0 < (s j).countP (bidP b.bid) :=
    List.countP_pos_iff.mpr ⟨b, hy, by simp [bidP]⟩
  have := cnt_pair_le b.bid s hij
  have := hu b.bid
  omega

/-- Under uniqOK, a decomposition of a bucket at a node leaves no second
occurrence of its identity around it. -/
theorem uniq_split_front_tail {s : BState} (hu : uniqOK s) {i : BKey}
    {l1 l2 : List Buf} {b : Buf} (hsi : s i = l1 ++ b :: l2) :
    (∀ y ∈ l1, bidP b.bid y = false) ∧ (∀ y ∈ l2, bidP b.bid y = false) := by
  have hcnt : (s i).countP (bidP b.bid) ≤ 1 :=
    le_trans (cnt_ge_bucket b.bid s i) (hu b.bid)
  rw [hsi, List.countP_append, List.countP_cons_of_pos _ _ (by simp [bidP])] at hcnt
  constructor
  · intro y hy
    by_contra hcon
    have : 0 < l1.countP (bidP b.bid) :=
      List.countP_pos_iff.mpr ⟨y, hy, by simpa using hcon⟩
    omega
  · intro y hy
    by_contra hcon
    have : 0 < l2.countP (bidP b.bid) :=
      List.countP_pos_iff.mpr ⟨y, hy, by simpa using hcon⟩
    omega

theorem countP_updFirst (p q : α → Bool) (f : α → α)
    (hf : ∀ a, q (f a) = q a) (l : List α) :
    (updFirst p f l).countP q = l.countP q := by
  induction l with
  | nil => simp [updFirst]
  | cons a t ih =>
    by_cases h : p a
    · simp [updFirst, h, List.countP_cons, hf]
    · simp [updFirst, h, List.countP_cons, ih]

/-- Membership of a node found through findBuf. -/
theorem findBuf_mem {bid : Nat} {s : BState} {b : Buf}
    (h : findBuf bid s = some b) :
    (∃ i : BKey, b ∈ s i) ∧ b.bid = bid := by
  have hmem := List.mem_of_find?_eq_some h
  have hp := List.find?_some h
  constructor
  · have h2 : ∃ i : BKey, b ∈ s i := by simpa [allB] using hmem
    exact h2
  · simpa [bidP] using hp

theorem countP_flatMap (p : β → Bool) (f : α → List β) (l : List α) :
    (l.flatMap f).countP p = (l.map (fun a => (f a).countP p)).sum := by
  induction l with
  | nil => simp
  | cons a t ih => simp [List.countP_append, ih]

/-- The identity count over the whole pool agrees with the bucket sum. -/
theorem countP_allB (n : Nat) (s : BState) :
    (allB s).countP (bidP n) = cnt n s := by
  unfold allB cnt
  rw [countP_flatMap, Fin.sum_univ_def]

/-- Conversely, any linked node is found by findBuf under uniqOK. -/
theorem findBuf_of_mem {s : BState} (hu : uniqOK s) {i : BKey} {b : Buf}
    (hb : b ∈ s i) : findBuf b.bid s = some b := by
  have hmem : b ∈ allB s :=
    List.mem_flatMap_of_mem (List.mem_finRange i) hb
  rcases List.append_of_mem hmem with ⟨u, v, huv⟩
  have hcnt : (allB s).countP (bidP b.bid) ≤ 1 := by
    rw [countP_allB]; exact hu b.bid
  rw [huv, List.countP_append, List.countP_cons_of_pos _ _ (by simp [bidP])] at hcnt
  have hfr : ∀ y ∈ u, bidP b.bid y = false := by
    intro y hy
    by_contra hcon
    have : 0 < u.countP (bidP b.bid) :=
      List.countP_pos_iff.mpr ⟨y, hy, by simpa using hcon⟩
    omega
  unfold findBuf
  rw [huv]
  exact find?_append_cons _ _ _ _ hfr (by simp [bidP])

/-! ## Small facts about the buffer predicates -/

theorem matchP_self (x : Buf) : matchP x.dev x.blockno x = true := by
  simp [matchP]

theorem matchP_fields {dev blockno : Nat} {b : Buf}
    (h : matchP dev blockno b = true) : b.dev = dev ∧ b.blockno = blockno := by
  simpa [matchP] using h

theorem freeP_refcnt {b : Buf} (h : freeP b = true) : b.refcnt = 0 := by
  simpa [freeP] using h

theorem countP_updLastP (p q : Buf → Bool) (f : Buf → Buf)
    (hf : ∀ a, q (f a) = q a) (l : List Buf) :
    (updLastP p f l).countP q = l.countP q := by
  unfold updLastP
  rw [List.countP_reverse, countP_updFirst p q f hf, List.countP_reverse]

/-- Under uniqOK, two decompositions of a bucket at the same node
coincide. -/
theorem uniq_same_split {s : BState} (hu : uniqOK s) {i : BKey}
    {u v m1 m2 : List Buf} {b : Buf}
    (h1 : s i = u ++ b :: v) (h2 : s i = m1 ++ b :: m2) :
    u = m1 ∧ v = m2 := by
  rcases split_trichotomy (h1.symm.trans h2) with h3 | ⟨k, hk1, hk2⟩ | ⟨k, hk1, hk2⟩
  · exact ⟨h3.1, h3.2.2⟩
  · have hfalse : bidP b.bid b = false :=
      (uniq_split_front_tail hu h2).1 b (by simp [hk1])
    simp [bidP] at hfalse
  · have hfalse : bidP b.bid b = false :=
      (uniq_split_front_tail hu h1).1 b (by simp [hk1])
    simp [bidP] at hfalse

/-- Under firstOK, an in-use buffer is the only in-use buffer of its
bucket matching its identity. -/
theorem live_unique {s : BState} (hf : firstOK s) {i : BKey} {x b : Buf}
    (hx : x ∈ s i) (hxr : 0 < x.refcnt) (hb : b ∈ s i) (hbr : 0 < b.refcnt)
    (hq : matchP x.dev x.blockno b = true) : x = b := by
  have h1 := hf i x hx hxr
  have h2 := hf i b hb hbr
  rcases matchP_fields hq with ⟨hd, hn⟩
  rw [hd, hn, h1] at h2
  exact Option.some_injective _ h2

/-- matchP only looks at the identity fields. -/
theorem matchP_congr {dev blockno : Nat} {b c : Buf}
    (hd : c.dev = b.dev) (hn : c.blockno = b.blockno) :
    matchP dev blockno c = matchP dev blockno b := by
  simp [matchP, hd, hn]

/-! ## Invariant preservation -/

/-- The hit path of bget preserves the cache invariants. -/
theorem inv_bget_hit (dev blockno : Nat) (s : BState) (b : Buf)
    (hfind : (s (hash blockno)).find? (matchP dev blockno) = some b)
    (hInv : Inv s) :
    Inv (Function.update s (hash blockno)
      (updFirst (matchP dev blockno) (fun x => { x with refcnt := x.refcnt + 1 })
        (s (hash blockno)))) := by
  obtain ⟨hu, hh, hfst⟩ := hInv
  rcases find?_split hfind with ⟨l1, l2, hsk, hpb, hfront⟩
  have hnl : updFirst (matchP dev blockno) (fun x => { x with refcnt := x.refcnt + 1 })
      (s (hash blockno)) = l1 ++ { b with refcnt := b.refcnt + 1 } :: l2 := by
    rw [hsk]; exact updFirst_append _ _ l1 l2 b hfront hpb
  rw [hnl]
  have hbuckets : ∀ j : BKey, j ≠ hash blockno →
      Function.update s (hash blockno) (l1 ++ { b with refcnt := b.refcnt + 1 } :: l2) j = s j :=
    fun j hj => Function.update_noteq hj _ s
  have hkeyl : Function.update s (hash blockno)
      (l1 ++ { b with refcnt := b.refcnt + 1 } :: l2) (hash blockno) =
      l1 ++ { b with refcnt := b.refcnt + 1 } :: l2 := Function.update_same _ _ s
  refine ⟨?_, ?_, ?_⟩
  · -- uniqOK
    intro n
    have hcu := cnt_update n s (hash blockno) (l1 ++ { b with refcnt := b.refcnt + 1 } :: l2)
    have hcc : (l1 ++ { b with refcnt := b.refcnt + 1 } :: l2).countP (bidP n) =
        (s (hash blockno)).countP (bidP n) := by
      rw [hsk]
      simp [List.countP_append, List.countP_cons, bidP]
    have := hu n
    omega
  · -- homeOK
    intro j y hy hyr
    by_cases hj : j = hash blockno
    · subst hj
      rw [hkeyl] at hy
      rcases List.mem_append.mp hy with hyu | hyc
      · exact hh _ y (by rw [hsk]; simp [hyu]) hyr
      · rcases List.mem_cons.mp hyc with rfl | hyv
        · rcases matchP_fields hpb with ⟨_, hn⟩
          show hash b.blockno = hash blockno
          rw [hn]
        · exact hh _ y (by rw [hsk]; simp [hyv]) hyr
    · rw [hbuckets j hj] at hy
      exact hh j y hy hyr
  · -- firstOK
    intro j x hx hxr
    by_cases hj : j = hash blockno
    · subst hj
      rw [hkeyl] at hx ⊢
      rcases matchP_fields hpb with ⟨hd3, hn3⟩
      by_cases hxb : x = { b with refcnt := b.refcnt + 1 }
      · subst hxb
        show (l1 ++ _ :: l2).find? (matchP b.dev b.blockno) = _
        have hpb2 : matchP b.dev b.blockno { b with refcnt := b.refcnt + 1 } = true := by
          simp [matchP]
        have hfr2 : ∀ y ∈ l1, matchP b.dev b.blockno y = false := by
          intro y hy
          rw [hd3, hn3]
          exact hfront y hy
        exact find?_append_cons _ l1 l2 _ hfr2 hpb2
      · have hxmem : x ∈ l1 ∨ x ∈ l2 := by
          rcases List.mem_append.mp hx with h | h
          · exact Or.inl h
          · rcases List.mem_cons.mp h with h2 | h2
            · exact absurd h2 hxb
            · exact Or.inr h2
        have hxold : x ∈ s (hash blockno) := by
          rw [hsk]; rcases hxmem with h | h <;> simp [h]
        have hxfind := hfst _ x hxold hxr
        by_cases hxbv : x = b
        · exfalso
          rcases uniq_split_front_tail hu hsk with ⟨hnf, hnt⟩
          subst hxbv
          rcases hxmem with h | h
          · have := hnf x h; simp [bidP] at this
          · have := hnt x h; simp [bidP] at this
        · have hqb : matchP x.dev x.blockno b = false := by
            cases hq : matchP x.dev x.blockno b with
            | false => rfl
            | true =>
              exfalso
              rcases matchP_fields hq with ⟨hd2, hn2⟩
              have hxd : x.dev = dev := by rw [← hd2, hd3]
              have hxn : x.blockno = blockno := by rw [← hn2, hn3]
              rw [hxd, hxn, hfind] at hxfind
              exact hxbv (Option.some_injective _ hxfind).symm
          have hqc : matchP x.dev x.blockno { b with refcnt := b.refcnt + 1 } = false := by
            rw [matchP_congr (c := { b with refcnt := b.refcnt + 1 }) rfl rfl]
            exact hqb
          exact find?_replace_pres _ hsk hxfind (Ne.symm hxbv) hqc
    · rw [hbuckets j hj] at hx ⊢
      exact hfst j x hx hxr

/-- The local repurpose path of bget preserves the cache invariants. -/
theorem inv_bget_local (dev blockno : Nat) (s : BState) (b : Buf)
    (hm : (s (hash blockno)).find? (matchP dev blockno) = none)
    (hfree : (s (hash blockno)).reverse.find? freeP = some b)
    (hInv : Inv s) :
    Inv (Function.update s (hash blockno)
      (updLastP freeP (repurpose dev blockno) (s (hash blockno)))) := by
  obtain ⟨hu, hh, hfst⟩ := hInv
  rcases find?_reverse_split hfree with ⟨l1, l2, hsk, hpb, htail⟩
  have hnomatch : ∀ y ∈ s (hash blockno), matchP dev blockno y = false := by
    intro y hy
    have h2 := List.find?_eq_none.mp hm y hy
    cases hq : matchP dev blockno y with
    | false => rfl
    | true => exact absurd hq h2
  have hnl : updLastP freeP (repurpose dev blockno) (s (hash blockno)) =
      l1 ++ repurpose dev blockno b :: l2 := by
    rw [hsk]; exact updLastP_append _ _ l1 l2 b htail hpb
  rw [hnl]
  have hbuckets : ∀ j : BKey, j ≠ hash blockno →
      Function.update s (hash blockno) (l1 ++ repurpose dev blockno b :: l2) j = s j :=
    fun j hj => Function.update_noteq hj _ s
  have hkeyl : Function.update s (hash blockno)
      (l1 ++ repurpose dev blockno b :: l2) (hash blockno) =
      l1 ++ repurpose dev blockno b :: l2 := Function.update_same _ _ s
  refine ⟨?_, ?_, ?_⟩
  · -- uniqOK
    intro n
    have hcu := cnt_update n s (hash blockno) (l1 ++ repurpose dev blockno b :: l2)
    have hcc : (l1 ++ repurpose dev blockno b :: l2).countP (bidP n) =
        (s (hash blockno)).countP (bidP n) := by
      rw [hsk]
      simp [List.countP_append, List.countP_cons, bidP, repurpose]
    have := hu n
    omega
  · -- homeOK
    intro j y hy hyr
    by_cases hj : j = hash blockno
    · subst hj
      rw [hkeyl] at hy
      rcases List.mem_append.mp hy with hyu | hyc
      · exact hh _ y (by rw [hsk]; simp [hyu]) hyr
      · rcases List.mem_cons.mp hyc with rfl | hyv
        · show hash (repurpose dev blockno b).blockno = hash blockno
          simp [repurpose]
        · exact hh _ y (by rw [hsk]; simp [hyv]) hyr
    · rw [hbuckets j hj] at hy
      exact hh j y hy hyr
  · -- firstOK
    intro j x hx hxr
    by_cases hj : j = hash blockno
    · subst hj
      rw [hkeyl] at hx ⊢
      by_cases hxb : x = repurpose dev blockno b
      · subst hxb
        show (l1 ++ _ :: l2).find?
          (matchP (repurpose dev blockno b).dev (repurpose dev blockno b).blockno) = _
        have hdev2 : (repurpose dev blockno b).dev = dev := by simp [repurpose]
        have hbn2 : (repurpose dev blockno b).blockno = blockno := by simp [repurpose]
        rw [hdev2, hbn2]
        refine find?_append_cons _ l1 l2 _ ?_ (by simp [matchP, repurpose])
        intro y hy
        exact hnomatch y (by rw [hsk]; simp [hy])
      · have hxmem : x ∈ l1 ∨ x ∈ l2 := by
          rcases List.mem_append.mp hx with h | h
          · exact Or.inl h
          · rcases List.mem_cons.mp h with h2 | h2
            · exact absurd h2 hxb
            · exact Or.inr h2
        have hxold : x ∈ s (hash blockno) := by
          rw [hsk]; rcases hxmem with h | h <;> simp [h]
        have hxfind := hfst _ x hxold hxr
        have hxbv : x ≠ b := by
          intro hcon
          have hb0 : b.refcnt = 0 := freeP_refcnt hpb
          rw [hcon] at hxr
          omega
        have hqc : matchP x.dev x.blockno (repurpose dev blockno b) = false := by
          cases hq : matchP x.dev x.blockno (repurpose dev blockno b) with
          | false => rfl
          | true =>
            exfalso
            rcases matchP_fields hq with ⟨hd2, hn2⟩
            have hxd : x.dev = dev := by rw [← hd2]; simp [repurpose]
            have hxn : x.blockno = blockno := by rw [← hn2]; simp [repurpose]
            have := hnomatch x hxold
            rw [← hxd, ← hxn] at this
            rw [matchP_self x] at this
            exact Bool.true_eq_false.mp this
        exact find?_replace_pres _ hsk hxfind (Ne.symm hxbv) hqc
    · rw [hbuckets j hj] at hx ⊢
      exact hfst j x hx hxr

/-- The cross-bucket migration path of bget preserves the cache
invariants. -/
theorem inv_bget_migrate (dev blockno : Nat) (s : BState) (i : BKey) (b : Buf)
    (hik : i ≠ hash blockno)
    (hm : (s (hash blockno)).find? (matchP dev blockno) = none)
    (hfound : (s i).reverse.find? freeP = some b)
    (hInv : Inv s) :
    Inv (Function.update (Function.update s i (removeLastP freeP (s i))) (hash blockno)
      ((Function.update s i (removeLastP freeP (s i))) (hash blockno) ++
        [repurpose dev blockno b])) := by
  obtain ⟨hu, hh, hfst⟩ := hInv
  rcases find?_reverse_split hfound with ⟨m1, m2, hsi, hpb, htail⟩
  have hnomatch : ∀ y ∈ s (hash blockno), matchP dev blockno y = false := by
    intro y hy
    have h2 := List.find?_eq_none.mp hm y hy
    cases hq : matchP dev blockno y with
    | false => rfl
    | true => exact absurd hq h2
  have hrem : removeLastP freeP (s i) = m1 ++ m2 := by
    rw [hsi]; exact removeLastP_append _ m1 m2 b htail hpb
  have hs1key : Function.update s i (m1 ++ m2) (hash blockno) = s (hash blockno) :=
    Function.update_noteq (Ne.symm hik) _ s
  rw [hrem, hs1key]
  have hs2key : Function.update (Function.update s i (m1 ++ m2)) (hash blockno)
      (s (hash blockno) ++ [repurpose dev blockno b]) (hash blockno) =
      s (hash blockno) ++ [repurpose dev blockno b] := Function.update_same _ _ _
  have hs2i : Function.update (Function.update s i (m1 ++ m2)) (hash blockno)
      (s (hash blockno) ++ [repurpose dev blockno b]) i = m1 ++ m2 := by
    rw [Function.update_noteq hik, Function.update_same]
  have hs2other : ∀ j : BKey, j ≠ hash blockno → j ≠ i →
      Function.update (Function.update s i (m1 ++ m2)) (hash blockno)
        (s (hash blockno) ++ [repurpose dev blockno b]) j = s j := by
    intro j hjk hji
    rw [Function.update_noteq hjk, Function.update_noteq hji]
  refine ⟨?_, ?_, ?_⟩
  · -- uniqOK
    intro n
    have hcu1 := cnt_update n s i (m1 ++ m2)
    have hcu2 := cnt_update n (Function.update s i (m1 ++ m2)) (hash blockno)
      (s (hash blockno) ++ [repurpose dev blockno b])
    rw [hs1key] at hcu2
    have hci : (s i).countP (bidP n) = (m1 ++ m2).countP (bidP n) +
        (if bidP n b then 1 else 0) := by
      rw [hsi]
      simp [List.countP_append, List.countP_cons]
      omega
    have hck : (s (hash blockno) ++ [repurpose dev blockno b]).countP (bidP n) =
        (s (hash blockno)).countP (bidP n) + (if bidP n b then 1 else 0) := by
      simp [List.countP_append, List.countP_cons, bidP, repurpose]
    have := hu n
    omega
  · -- homeOK
    intro j y hy hyr
    by_cases hjk : j = hash blockno
    · subst hjk
      rw [hs2key] at hy
      rcases List.mem_append.mp hy with hyo | hyb
      · exact hh _ y hyo hyr
      · rcases List.mem_cons.mp hyb with rfl | hcon
        · show hash (repurpose dev blockno b).blockno = hash blockno
          simp [repurpose]
        · simp at hcon
    · by_cases hji : j = i
      · subst hji
        rw [hs2i] at hy
        have hyold : y ∈ s j := by
          rw [hsi]; rcases List.mem_append.mp hy with h | h <;> simp [h]
        exact hh j y hyold hyr
      · rw [hs2other j hjk hji] at hy
        exact hh j y hy hyr
  · -- firstOK
    intro j x hx hxr
    by_cases hjk : j = hash blockno
    · subst hjk
      rw [hs2key] at hx ⊢
      by_cases hxb : x = repurpose dev blockno b
      · subst hxb
        show (s (hash blockno) ++ [_]).find?
          (matchP (repurpose dev blockno b).dev (repurpose dev blockno b).blockno) = _
        have hdev2 : (repurpose dev blockno b).dev = dev := by simp [repurpose]
        have hbn2 : (repurpose dev blockno b).blockno = blockno := by simp [repurpose]
        rw [hdev2, hbn2]
        exact find?_append_cons _ (s (hash blockno)) [] _ hnomatch
          (by simp [matchP, repurpose])
      · have hxmem : x ∈ s (hash blockno) := by
          rcases List.mem_append.mp hx with h | h
          · exact h
          · rcases List.mem_cons.mp h with h2 | h2
            · exact absurd h2 hxb
            · simp at h2
        exact find?_append_end_pres _ _ (hfst _ x hxmem hxr)
    · by_cases hji : j = i
      · subst hji
        rw [hs2i] at hx ⊢
        have hxold : x ∈ s j := by
          rw [hsi]; rcases List.mem_append.mp hx with h | h <;> simp [h]
        have hxbv : x ≠ b := by
          intro hcon
          have hb0 : b.refcnt = 0 := freeP_refcnt hpb
          rw [hcon] at hxr
          omega
        exact find?_remove_pres _ hsi (hfst j x hxold hxr) (Ne.symm hxbv)
      · rw [hs2other j hjk hji] at hx ⊢
        exact hfst j x hx hxr

/-- An in-place field update of a held buffer that keeps its identity
fields preserves the cache invariants (covers the refcnt and valid
mutations of bread, brelse with remaining holders, bpin and bunpin). -/
theorem inv_mapBuf (bid : Nat) (f : Buf → Buf) (s : BState) (i0 : BKey) (b : Buf)
    (hb : b ∈ s i0) (hbid0 : b.bid = bid) (hr : 0 < b.refcnt)
    (hfbid : (f b).bid = b.bid) (hfdev : (f b).dev = b.dev)
    (hfbn : (f b).blockno = b.blockno)
    (hInv : Inv s) : Inv (mapBuf bid f s) := by
  obtain ⟨hu, hh, hfst⟩ := hInv
  rcases List.append_of_mem hb with ⟨u, v, huv⟩
  rcases uniq_split_front_tail hu huv with ⟨hnf, hnt⟩
  have hgid : ∀ (l : List Buf), (∀ y ∈ l, bidP bid y = false) →
      l.map (fun y => if bidP bid y then f y else y) = l := by
    intro l hl
    have h2 : ∀ a ∈ l, (if bidP bid a then f a else a) = id a := by
      intro a ha
      rw [hl a ha]
      rfl
    rw [List.map_congr_left h2, List.map_id]
  have hmain : mapBuf bid f s = Function.update s i0 (u ++ f b :: v) := by
    funext j
    by_cases hj : j = i0
    · subst hj
      rw [Function.update_same]
      show (s j).map _ = _
      rw [huv, List.map_append, List.map_cons]
      rw [hgid u (fun y hy => hbid0 ▸ hnf y hy)]
      rw [hgid v (fun y hy => hbid0 ▸ hnt y hy)]
      rw [if_pos (show bidP bid b = true by simp [bidP, hbid0])]
    · rw [Function.update_noteq hj]
      exact hgid (s j) (fun y hy => hbid0 ▸ uniq_no_other hu hb hj y hy)
  rw [hmain]
  have hbuckets : ∀ j : BKey, j ≠ i0 →
      Function.update s i0 (u ++ f b :: v) j = s j :=
    fun j hj => Function.update_noteq hj _ s
  have hkeyl : Function.update s i0 (u ++ f b :: v) i0 = u ++ f b :: v :=
    Function.update_same _ _ s
  refine ⟨?_, ?_, ?_⟩
  · -- uniqOK
    intro n
    have hcu := cnt_update n s i0 (u ++ f b :: v)
    have hcc : (u ++ f b :: v).countP (bidP n) = (s i0).countP (bidP n) := by
      rw [huv]
      simp only [List.countP_append, List.countP_cons]
      have : bidP n (f b) = bidP n b := by simp [bidP, hfbid]
      rw [this]
    have := hu n
    omega
  · -- homeOK
    intro j y hy hyr
    by_cases hj : j = i0
    · subst hj
      rw [hkeyl] at hy
      rcases List.mem_append.mp hy with hyu | hyc
      · exact hh _ y (by rw [huv]; simp [hyu]) hyr
      · rcases List.mem_cons.mp hyc with rfl | hyv
        · show hash (f b).blockno = j
          rw [hfbn]
          exact hh j b hb hr
        · exact hh _ y (by rw [huv]; simp [hyv]) hyr
    · rw [hbuckets j hj] at hy
      exact hh j y hy hyr
  · -- firstOK
    intro j x hx hxr
    by_cases hj : j = i0
    · subst hj
      rw [hkeyl] at hx ⊢
      by_cases hxb : x = f b
      · subst hxb
        show (u ++ _ :: v).find? (matchP (f b).dev (f b).blockno) = _
        rw [hfdev, hfbn]
        have hbfind := hfst j b hb hr
        rcases find?_split hbfind with ⟨m1, m2, hm12, _, hfrontq⟩
        rcases uniq_same_split hu huv hm12 with ⟨rfl, rfl⟩
        refine find?_append_cons _ u v _ hfrontq ?_
        rw [matchP_congr hfdev hfbn]
        exact matchP_self b
      · have hxmem : x ∈ u ∨ x ∈ v := by
          rcases List.mem_append.mp hx with h | h
          · exact Or.inl h
          · rcases List.mem_cons.mp h with h2 | h2
            · exact absurd h2 hxb
            · exact Or.inr h2
        have hxold : x ∈ s j := by
          rw [huv]; rcases hxmem with h | h <;> simp [h]
        have hxfind := hfst j x hxold hxr
        by_cases hxbv : x = b
        · exfalso
          subst hxbv
          rcases hxmem with h | h
          · have := hnf x h; simp [bidP] at this
          · have := hnt x h; simp [bidP] at this
        · have hqb : matchP x.dev x.blockno b = false := by
            cases hq : matchP x.dev x.blockno b with
            | false => rfl
            | true => exact absurd (live_unique hfst hxold hxr hb hr hq) hxbv
          have hqc : matchP x.dev x.blockno (f b) = false := by
            rw [matchP_congr hfdev hfbn]
            exact hqb
          exact find?_replace_pres _ huv hxfind (Ne.symm hxbv) hqc
    · rw [hbuckets j hj] at hx ⊢
      exact hfst j x hx hxr

/-- The move-to-MRU path of brelse (refcnt reaching zero) preserves the
cache invariants. -/
theorem inv_brelse_move (s : BState) (b : Buf) (i0 : BKey)
    (hb : b ∈ s i0) (hr : b.refcnt = 1) (hInv : Inv s) :
    Inv (Function.update (eraseBuf b.bid s) (hash b.blockno)
      ({ b with refcnt := 0 } :: (eraseBuf b.bid s) (hash b.blockno))) := by
  obtain ⟨hu, hh, hfst⟩ := hInv
  have hrpos : 0 < b.refcnt := by omega
  have hkey : hash b.blockno = i0 := hh i0 b hb hrpos
  rcases List.append_of_mem hb with ⟨u, v, huv⟩
  rcases uniq_split_front_tail hu huv with ⟨hnf, hnt⟩
  have herase : eraseBuf b.bid s = Function.update s i0 (u ++ v) := by
    funext j
    by_cases hj : j = i0
    · subst hj
      rw [Function.update_same]
      show (s j).eraseP (bidP b.bid) = u ++ v
      rw [huv, List.eraseP_append_right _ (by
        intro y hy
        rw [hnf y hy]
        exact Bool.false_ne_true)]
      rw [List.eraseP_cons_of_pos (by simp [bidP])]
    · rw [Function.update_noteq hj]
      exact List.eraseP_of_forall_not (fun y hy => by
        rw [uniq_no_other hu hb hj y hy]
        exact Bool.false_ne_true)
  rw [herase, hkey]
  rw [Function.update_same, Function.update_idem]
  have hbuckets : ∀ j : BKey, j ≠ i0 →
      Function.update s i0 ({ b with refcnt := 0 } :: (u ++ v)) j = s j :=
    fun j hj => Function.update_noteq hj _ s
  have hkeyl : Function.update s i0 ({ b with refcnt := 0 } :: (u ++ v)) i0 =
      { b with refcnt := 0 } :: (u ++ v) := Function.update_same _ _ s
  refine ⟨?_, ?_, ?_⟩
  · -- uniqOK
    intro n
    have hcu := cnt_update n s i0 ({ b with refcnt := 0 } :: (u ++ v))
    have hcc : ({ b with refcnt := 0 } :: (u ++ v)).countP (bidP n) =
        (s i0).countP (bidP n) := by
      rw [huv]
      simp [List.countP_append, List.countP_cons, bidP]
      omega
    have := hu n
    omega
  · -- homeOK
    intro j y hy hyr
    by_cases hj : j = i0
    · subst hj
      rw [hkeyl] at hy
      rcases List.mem_cons.mp hy with rfl | hyc
      · simp at hyr
      · rcases List.mem_append.mp hyc with hyu | hyv
        · exact hh _ y (by rw [huv]; simp [hyu]) hyr
        · exact hh _ y (by rw [huv]; simp [hyv]) hyr
    · rw [hbuckets j hj] at hy
      exact hh j y hy hyr
  · -- firstOK
    intro j x hx hxr
    by_cases hj : j = i0
    · subst hj
      rw [hkeyl] at hx ⊢
      rcases List.mem_cons.mp hx with rfl | hxc
      · simp at hxr
      · have hxmem : x ∈ u ∨ x ∈ v := List.mem_append.mp hxc
        have hxold : x ∈ s j := by
          rw [huv]; rcases hxmem with h | h <;> simp [h]
        have hxfind := hfst j x hxold hxr
        by_cases hxbv : x = b
        · exfalso
          subst hxbv
          rcases hxmem with h | h
          · have := hnf x h; simp [bidP] at this
          · have := hnt x h; simp [bidP] at this
        · have hqb : matchP x.dev x.blockno b = false := by
            cases hq : matchP x.dev x.blockno b with
            | false => rfl
            | true => exact absurd (live_unique hfst hxold hxr hb hrpos hq) hxbv
          have hq0 : matchP x.dev x.blockno { b with refcnt := 0 } = false := by
            rw [matchP_congr (c := { b with refcnt := 0 }) rfl rfl]
            exact hqb
          rw [List.find?_cons_of_neg _ (by simp [hq0])]
          exact find?_remove_pres _ huv hxfind (Ne.symm hxbv)
    · rw [hbuckets j hj] at hx ⊢
      exact hfst j x hx hxr

/-- A failed cross-bucket search leaves the cache unchanged. -/
theorem searchOther_none_state (dev blockno : Nat) (key : BKey) (s : BState) :
    ∀ L, (searchOther dev blockno key s L).1 = none →
      (searchOther dev blockno key s L).2.1 = s := by
  intro L
  induction L with
  | nil => intro _; rfl
  | cons i rest ih =>
    intro h
    cases hfind : (s i).reverse.find? freeP with
    | some b => simp [searchOther, hfind] at h
    | none =>
      simp only [searchOther, hfind]
      exact ih (by simpa [searchOther, hfind] using h)

set_option maxHeartbeats 1000000 in
/-- brelse on a held buffer preserves the cache invariants. -/
theorem inv_brelseStep (bid : Nat) (s : BState) (b : Buf)
    (hfb : findBuf bid s = some b) (hr : 0 < b.refcnt) (hInv : Inv s) :
    Inv (brelseStep bid s) := by
  rcases findBuf_mem hfb with ⟨⟨i0, hb⟩, hbid⟩
  simp only [brelseStep, hfb]
  by_cases h1 : b.refcnt = 1
  · rw [if_pos h1, ← hbid]
    exact inv_brelse_move s b i0 hb h1 hInv
  · rw [if_neg h1]
    exact inv_mapBuf bid _ s i0 b hb hbid hr (by simp) (by simp) (by simp) hInv

/-- Every path of bget preserves the cache invariants. -/
theorem inv_bget (dev blockno : Nat) (s : BState) (hInv : Inv s) :
    Inv ((bget dev blockno s).2.1) := by
  cases hfind : (s (hash blockno)).find? (matchP dev blockno) with
  | some b =>
    rw [bget_hit dev blockno s b hfind]
    exact inv_bget_hit dev blockno s b hfind hInv
  | none =>
    cases hfree : (s (hash blockno)).reverse.find? freeP with
    | some b =>
      rw [bget_local dev blockno s b hfind hfree]
      exact inv_bget_local dev blockno s b hfind hfree hInv
    | none =>
      cases hres : (searchOther dev blockno (hash blockno) s (otherBuckets (hash blockno))).1 with
      | some bid =>
        rw [bget_global_some dev blockno s bid hfind hfree hres]
        rcases searchOther_split dev blockno (hash blockno) s _ bid hres with
          ⟨pre, i, rest, b, hL, hpre, hfound, hbid, heq⟩
        have hik : i ≠ hash blockno := by
          have hmem : i ∈ otherBuckets (hash blockno) := by rw [hL]; simp
          have h2 := List.mem_filter.mp hmem
          simpa using h2.2
        show Inv ((searchOther dev blockno (hash blockno) s (otherBuckets (hash blockno))).2.1)
        rw [heq]
        exact inv_bget_migrate dev blockno s i b hik hfind hfound hInv
      | none =>
        rw [bget_global_none dev blockno s hfind hfree hres]
        show Inv ((searchOther dev blockno (hash blockno) s (otherBuckets (hash blockno))).2.1)
        rw [searchOther_none_state dev blockno (hash blockno) s _ hres]
        exact hInv

set_option maxHeartbeats 2000000 in
/-- The initialized cache satisfies the invariants. -/
theorem inv_binit : Inv binitState := by
  have hfr : ∀ (k : BKey), ∀ b ∈ binitState k, b.refcnt = 0 ∧ b.bid < 30 := by
    intro k b hb
    simp only [binitState, List.mem_map, List.mem_reverse, List.mem_filter,
      List.mem_range] at hb
    rcases hb with ⟨i, ⟨hi30, _⟩, rfl⟩
    exact ⟨rfl, hi30⟩
  refine ⟨?_, ?_, ?_⟩
  · intro n
    by_cases hn : n < 30
    · interval_cases n <;> decide
    · have h0 : ∀ k : BKey, (binitState k).countP (bidP n) = 0 := by
        intro k
        rw [List.countP_eq_zero]
        intro b hb
        have h2 := (hfr k b hb).2
        simp only [bidP, beq_iff_eq]
        omega
      unfold cnt
      simp [h0]
  · intro i b hb hr
    have := (hfr i b hb).1
    omega
  · intro i x hx hxr
    have := (hfr i x hx).1
    omega

/-- Each cache operation preserves the invariants. -/
theorem inv_step {s s' : BState} (h : Step s s') (hInv : Inv s) : Inv s' := by
  cases h with
  | doGet dev blockno s h => exact inv_bget dev blockno s hInv
  | doValid bid s b hb hr =>
    rcases findBuf_mem hb with ⟨⟨i0, hmem⟩, hbid⟩
    exact inv_mapBuf bid _ s i0 b hmem hbid hr (by simp) (by simp) (by simp) hInv
  | doRelse bid s b hb hr => exact inv_brelseStep bid s b hb hr hInv
  | doPin bid s b hb hr =>
    rcases findBuf_mem hb with ⟨⟨i0, hmem⟩, hbid⟩
    exact inv_mapBuf bid _ s i0 b hmem hbid hr (by simp) (by simp) (by simp) hInv
  | doUnpin bid s b hb hr =>
    rcases findBuf_mem hb with ⟨⟨i0, hmem⟩, hbid⟩
    exact inv_mapBuf bid _ s i0 b hmem hbid hr (by simp) (by simp) (by simp) hInv

/-- Every reachable cache state satisfies the invariants. -/
theorem reach_inv {s : BState} (h : Reach s) : Inv s := by
  induction h with
  | init => exact inv_binit
  | step _ hstep ih => exact inv_step hstep ih

/-! ## Claim theorems -/

/-- C1: a bget(dev, blockno) call that misses in its home bucket while
some buffer there has refcnt == 0 selects the first such buffer scanning
from the LRU (tail) end, repurposes it in place (requested identity,
valid = false, refcnt = 1, list position unchanged), and returns it, the
final action being the acquisition of its exclusive-use sleep lock. -/
theorem c1_local_reuse (dev blockno : Nat) (s : BState)
    (hmiss : ∀ y ∈ s (hash blockno), ¬(y.dev = dev ∧ y.blockno = blockno))
    (hfree : ∃ y ∈ s (hash blockno), y.refcnt = 0) :
    ∃ b l1 l2,
      s (hash blockno) = l1 ++ b :: l2 ∧
      b.refcnt = 0 ∧
      (∀ y ∈ l2, y.refcnt ≠ 0) ∧
      bget dev blockno s =
        (some b.bid,
         Function.update s (hash blockno) (l1 ++ repurpose dev blockno b :: l2),
         [LockEv.acqB (hash blockno), LockEv.relB (hash blockno),
          LockEv.acqS b.bid]) := by
  have hm : (s (hash blockno)).find? (matchP dev blockno) = none := by
    rw [List.find?_eq_none]
    intro y hy hq
    exact hmiss y hy (matchP_fields hq)
  have hfs : ((s (hash blockno)).reverse.find? freeP).isSome := by
    rw [List.find?_isSome]
    rcases hfree with ⟨y, hy, hy0⟩
    exact ⟨y, List.mem_reverse.mpr hy, by simp [freeP, hy0]⟩
  rcases Option.isSome_iff_exists.mp hfs with ⟨b, hb⟩
  rcases find?_reverse_split hb with ⟨l1, l2, hsk, hpb, htail⟩
  refine ⟨b, l1, l2, hsk, freeP_refcnt hpb, ?_, ?_⟩
  · intro y hy hc
    have := htail y hy
    simp [freeP, hc] at this
  · rw [bget_local dev blockno s b hm hb]
    rw [show updLastP freeP (repurpose dev blockno) (s (hash blockno)) =
      l1 ++ repurpose dev blockno b :: l2 by
        rw [hsk]; exact updLastP_append _ _ l1 l2 b htail hpb]

/-- C1 witness: the initialized cache misses on block (1, 1) and
repurposes the LRU-end free buffer of bucket 1, which is buffer 1. -/
theorem c1_witness :
    ∃ b l1 l2,
      binitState (hash 1) = l1 ++ b :: l2 ∧
      b.refcnt = 0 ∧
      (∀ y ∈ l2, y.refcnt ≠ 0) ∧
      bget 1 1 binitState =
        (some b.bid,
         Function.update binitState (hash 1) (l1 ++ repurpose 1 1 b :: l2),
         [LockEv.acqB (hash 1), LockEv.relB (hash 1), LockEv.acqS b.bid]) :=
  c1_local_reuse 1 1 binitState (by decide) (by decide)

/-- C2 counterexample: a state in which every buffer of every bucket has
refcnt > 0, yet bget(1, 0) and bread(1, 0) return normally (the request
hits the cached block), contradicting the claim that any bget/bread in
such a state panics. -/
theorem c2_counterexample :
    (∀ (i : BKey), ∀ y ∈ c2state i, 0 < y.refcnt) ∧
    (bget 1 0 c2state).1 = some 0 ∧
    (bread 1 0 c2state).1 = some 0 := by
  refine ⟨by decide, by decide, by decide⟩

/-- C2 (amended): a bget/bread call that misses in its home bucket while
every buffer in every bucket has refcnt > 0 reaches the panic at
bio.c line 142 (modelled as the none result), rather than returning or
retrying. -/
theorem c2_exhaustion_panic (dev blockno : Nat) (s : BState)
    (hmiss : ∀ y ∈ s (hash blockno), ¬(y.dev = dev ∧ y.blockno = blockno))
    (hbusy : ∀ (i : BKey), ∀ y ∈ s i, y.refcnt ≠ 0) :
    (bget dev blockno s).1 = none ∧ (bread dev blockno s).1 = none := by
  have hm : (s (hash blockno)).find? (matchP dev blockno) = none := by
    rw [List.find?_eq_none]
    intro y hy hq
    exact hmiss y hy (matchP_fields hq)
  have hfnone : ∀ i : BKey, (s i).reverse.find? freeP = none := by
    intro i
    rw [List.find?_eq_none]
    intro y hy hq
    exact hbusy i y (List.mem_reverse.mp hy) (freeP_refcnt hq)
  have hso := searchOther_all_busy dev blockno (hash blockno) s
    (otherBuckets (hash blockno)) (fun j _ => hfnone j)
  have hget := bget_global_none dev blockno s hm (hfnone _) (by rw [hso])
  constructor
  · rw [hget]
  · simp only [bread, hget]

/-- C2 witness: with one busy buffer caching block (7, 13) and all other
buckets empty, bread(1, 0) misses everywhere and panics. -/
theorem c2_witness :
    (bget 1 0 c2wit).1 = none ∧ (bread 1 0 c2wit).1 = none :=
  c2_exhaustion_panic 1 0 c2wit (by decide) (by decide)

/-- C3 counterexample: immediately after binit the cache holds distinct
buffers (buffer 0 in bucket 0 and buffer 1 in bucket 1) carrying the
same zero-initialized (device, blockNumber) identity (0, 0), so the
claim that at no point two distinct buffers carry the same identity is
false in the initial state. -/
theorem c3_counterexample :
    ({ bid := 0, dev := 0, blockno := 0, valid := false, refcnt := 0 } : Buf) ∈
      binitState (hash 0) ∧
    ({ bid := 1, dev := 0, blockno := 0, valid := false, refcnt := 0 } : Buf) ∈
      binitState (hash 1) ∧
    ({ bid := 0, dev := 0, blockno := 0, valid := false, refcnt := 0 } : Buf) ≠
      ({ bid := 1, dev := 0, blockno := 0, valid := false, refcnt := 0 } : Buf) ∧
    Buf.dev { bid := 0, dev := 0, blockno := 0, valid := false, refcnt := 0 } =
      Buf.dev { bid := 1, dev := 0, blockno := 0, valid := false, refcnt := 0 } ∧
    Buf.blockno { bid := 0, dev := 0, blockno := 0, valid := false, refcnt := 0 } =
      Buf.blockno { bid := 1, dev := 0, blockno := 0, valid := false, refcnt := 0 } := by
  refine ⟨by decide, by decide, by decide, rfl, rfl⟩

/-- C3 (amended): in every reachable cache state, no two distinct
in-use buffers (refcnt > 0) carry the same (device, blockNumber)
identity, and bget for the identity of an in-use buffer returns exactly
that buffer - hence two overlapping bread calls for the same block
return the same buffer instance. -/
theorem c3_live_identity (s : BState) (hs : Reach s) :
    (∀ (i j : BKey) (x y : Buf), x ∈ s i → y ∈ s j → 0 < x.refcnt →
      0 < y.refcnt → x.dev = y.dev → x.blockno = y.blockno → x = y ∧ i = j) ∧
    (∀ (i : BKey) (x : Buf), x ∈ s i → 0 < x.refcnt →
      (bget x.dev x.blockno s).1 = some x.bid) := by
  obtain ⟨hu, hh, hfst⟩ := reach_inv hs
  constructor
  · intro i j x y hx hy hxr hyr hd hn
    have hij : i = j := by
      have h1 := hh i x hx hxr
      have h2 := hh j y hy hyr
      rw [← h1, ← h2, hn]
    subst hij
    have hq : matchP x.dev x.blockno y = true := by
      simp [matchP, hd, hn]
    exact ⟨live_unique hfst hx hxr hy hyr hq, rfl⟩
  · intro i x hx hxr
    have hkey : hash x.blockno = i := hh i x hx hxr
    have hfind := hfst i x hx hxr
    rw [bget_hit x.dev x.blockno s x (by rw [hkey]; exact hfind)]

/-- C3 witness: after bget(1, 1) on the initialized cache has installed
buffer 1 for block (1, 1), a second bget(1, 1) returns the same
buffer 1. -/
theorem c3_witness :
    (bget 1 1 ((bget 1 1 binitState).2.1)).1 = some 1 := by
  have hreach : Reach ((bget 1 1 binitState).2.1) :=
    Reach.step Reach.init (Step.doGet 1 1 binitState (by decide))
  exact (c3_live_identity _ hreach).2 (hash 1)
    { bid := 1, dev := 1, blockno := 1, valid := false, refcnt := 1 }
    (by decide) (by decide)

/-- C10: in every reachable cache state, every buffer with refcnt > 0
is linked in the bucket indexed by hash of its current blockno, so the
bucket lock brelse, bpin and bunpin compute from hash(b->blockno) is the
lock of the buffer's current bucket. -/
theorem c10_home_bucket (s : BState) (hs : Reach s) :
    ∀ (i : BKey), ∀ b ∈ s i, 0 < b.refcnt → hash b.blockno = i :=
  (reach_inv hs).2.1

/-- C10 witness: after bget(1, 1) on the initialized cache, the in-use
buffer 1 (now block (1, 1)) lies in bucket hash(1). -/
theorem c10_witness :
    hash (Buf.blockno { bid := 1, dev := 1, blockno := 1, valid := false, refcnt := 1 }) =
      hash 1 := by
  have hreach : Reach ((bget 1 1 binitState).2.1) :=
    Reach.step Reach.init (Step.doGet 1 1 binitState (by decide))
  exact c10_home_bucket _ hreach (hash 1)
    { bid := 1, dev := 1, blockno := 1, valid := false, refcnt := 1 }
    (by decide) (by decide)

/-- C4 counterexample: in the migration forced by bget(1, 0) on
c4state (source bucket 1, target bucket 0), the trace contains exactly
one global-lock acquisition and exactly one source-bucket-lock
acquisition, and the global acquisition comes strictly first - the code
acquires the global lock before the source-bucket lock, not after it as
the claim states. -/
theorem c4_counterexample :
    (bget 1 0 c4state).1 = some 1 ∧
    (bget 1 0 c4state).2.1 (hash 0) =
      [{ bid := 0, dev := 1, blockno := 13, valid := false, refcnt := 1 },
       { bid := 1, dev := 1, blockno := 0, valid := false, refcnt := 1 }] ∧
    (bget 1 0 c4state).2.1 ⟨1, by decide⟩ = [] ∧
    (bget 1 0 c4state).2.2 =
      [LockEv.acqB (hash 0), LockEv.relB (hash 0), LockEv.acqG,
       LockEv.acqB ⟨1, by decide⟩, LockEv.acqB (hash 0), LockEv.relB (hash 0),
       LockEv.relB ⟨1, by decide⟩, LockEv.relG, LockEv.acqS 1] ∧
    (bget 1 0 c4state).2.2.count (LockEv.acqB ⟨1, by decide⟩) = 1 ∧
    (bget 1 0 c4state).2.2.count LockEv.acqG = 1 ∧
    (bget 1 0 c4state).2.2.indexOf LockEv.acqG <
      (bget 1 0 c4state).2.2.indexOf (LockEv.acqB ⟨1, by decide⟩) := by
  refine ⟨by decide, by decide, by decide, by decide, by decide, by decide, by decide⟩

/-- C4 (amended): in every cross-bucket migration performed by bget, the
locks are acquired in the order: home (target) bucket lock released
first, then the GLOBAL lock, then each probed bucket's lock in turn,
then the source bucket's lock, with the target-bucket lock nested inside
it; the global lock is acquired once before the probing starts and
released only after the migration completes - it is held continuously
across the entire multi-bucket search. -/
theorem c4_migration_trace (dev blockno : Nat) (s : BState) (bid : Nat)
    (hmiss : ∀ y ∈ s (hash blockno), ¬(y.dev = dev ∧ y.blockno = blockno))
    (hnofree : ∀ y ∈ s (hash blockno), y.refcnt ≠ 0)
    (hres : (searchOther dev blockno (hash blockno) s
      (otherBuckets (hash blockno))).1 = some bid) :
    ∃ pre i rest b, otherBuckets (hash blockno) = pre ++ i :: rest ∧
      (∀ j ∈ pre, ∀ y ∈ s j, y.refcnt ≠ 0) ∧
      b ∈ s i ∧ b.refcnt = 0 ∧ bid = b.bid ∧
      (bget dev blockno s).2.2 =
        [LockEv.acqB (hash blockno), LockEv.relB (hash blockno), LockEv.acqG] ++
        (pre.flatMap (fun j => [LockEv.acqB j, LockEv.relB j])) ++
        [LockEv.acqB i, LockEv.acqB (hash blockno), LockEv.relB (hash blockno),
         LockEv.relB i] ++
        [LockEv.relG, LockEv.acqS b.bid] := by
  have hm : (s (hash blockno)).find? (matchP dev blockno) = none := by
    rw [List.find?_eq_none]
    intro y hy hq
    exact hmiss y hy (matchP_fields hq)
  have hf : (s (hash blockno)).reverse.find? freeP = none := by
    rw [List.find?_eq_none]
    intro y hy hq
    exact hnofree y (List.mem_reverse.mp hy) (freeP_refcnt hq)
  rcases searchOther_split dev blockno (hash blockno) s _ bid hres with
    ⟨pre, i, rest, b, hL, hpre, hfound, hbid, heq⟩
  refine ⟨pre, i, rest, b, hL, ?_, ?_, ?_, hbid, ?_⟩
  · intro j hj y hy hc
    have h2 := List.find?_eq_none.mp (hpre j hj) y (List.mem_reverse.mpr hy)
    simp [freeP, hc] at h2
  · exact List.mem_reverse.mp (List.mem_of_find?_eq_some hfound)
  · exact freeP_refcnt (List.find?_some hfound)
  · rw [bget_global_some dev blockno s bid hm hf hres]
    show ([LockEv.acqB (hash blockno), LockEv.relB (hash blockno), LockEv.acqG] ++
      (searchOther dev blockno (hash blockno) s (otherBuckets (hash blockno))).2.2 ++
      [LockEv.relG, LockEv.acqS bid]) = _
    rw [heq, hbid]
    simp

/-- C4 witness: bget(7, 2) on c4wit probes buckets 0 and 1 in vain and
migrates the free buffer of bucket 3, producing the nested-lock trace. -/
theorem c4_witness :
    ∃ pre i rest b, otherBuckets (hash 2) = pre ++ i :: rest ∧
      (∀ j ∈ pre, ∀ y ∈ c4wit j, y.refcnt ≠ 0) ∧
      b ∈ c4wit i ∧ b.refcnt = 0 ∧ 6 = b.bid ∧
      (bget 7 2 c4wit).2.2 =
        [LockEv.acqB (hash 2), LockEv.relB (hash 2), LockEv.acqG] ++
        (pre.flatMap (fun j => [LockEv.acqB j, LockEv.relB j])) ++
        [LockEv.acqB i, LockEv.acqB (hash 2), LockEv.relB (hash 2),
         LockEv.relB i] ++
        [LockEv.relG, LockEv.acqS b.bid] :=
  c4_migration_trace 7 2 c4wit 6 (by decide) (by decide) (by decide)

/-- C5: refcnt is a 32-bit unsigned field; under any sequence of the
refcnt updates performed by bread, brelse, bpin and bunpin, its stored
value stays at or above zero, and bunpin applied at refcnt = 0 leaves it
at 2^32 - 1 (the C uint wrap), not below zero. -/
theorem c5_refcnt_nonneg :
    (∀ (ops : List RefcntOp) (r : Int), 0 ≤ r → 0 ≤ runRefcnt ops r) ∧
    runRefcnt [RefcntOp.bunpin] 0 = UINTMOD - 1 := by
  constructor
  · intro ops
    induction ops with
    | nil =>
      intro r hr
      simpa [runRefcnt] using hr
    | cons op t ih =>
      intro r hr
      have hstep : 0 ≤ refcntEffect op r := by
        cases op <;> simp [refcntEffect, uincC, udecC, UINTMOD] <;> omega
      have h2 := ih (refcntEffect op r) hstep
      simpa [runRefcnt] using h2
  · decide

/-- C5 witness: a concrete mixed sequence of holds and releases keeps a
nonnegative refcnt. -/
theorem c5_witness :
    0 ≤ runRefcnt
      [RefcntOp.breadAlloc, RefcntOp.bpin, RefcntOp.brelse,
       RefcntOp.bunpin, RefcntOp.bunpin] 2 :=
  c5_refcnt_nonneg.1 _ 2 (by norm_num)

/-- C6: bwrite and brelse called by a process that does not hold the
buffer's exclusive-use sleep lock take the panic path deterministically;
with the lock held, bwrite issues exactly one synchronous device write
of the buffer's block without aborting (and brelse proceeds normally). -/
theorem c6_lock_contract (mypid : Nat) (lk : SleepLock) (b : Buf) (bid : Nat)
    (s : BState) :
    (holdingsleep lk mypid = false →
      bwrite mypid lk b = none ∧ brelseOp mypid lk bid s = none) ∧
    (holdingsleep lk mypid = true →
      bwrite mypid lk b = some [DiskOp.write b.dev b.blockno] ∧
      (brelseOp mypid lk bid s).isSome = true) := by
  constructor
  · intro h
    constructor <;> simp [bwrite, brelseOp, h]
  · intro h
    constructor <;> simp [bwrite, brelseOp, h]

/-- C6 witness: with the lock held by pid 4, a call from pid 5 panics in
bwrite, while the holder's bwrite issues one device write. -/
theorem c6_witness :
    bwrite 5 { locked := true, pid := 4 }
      { bid := 0, dev := 2, blockno := 3, valid := true, refcnt := 1 } = none ∧
    bwrite 4 { locked := true, pid := 4 }
      { bid := 0, dev := 2, blockno := 3, valid := true, refcnt := 1 } =
      some [DiskOp.write 2 3] := by
  have h1 := (c6_lock_contract 5 { locked := true, pid := 4 }
    { bid := 0, dev := 2, blockno := 3, valid := true, refcnt := 1 } 0 binitState).1
    (by decide)
  have h2 := (c6_lock_contract 4 { locked := true, pid := 4 }
    { bid := 0, dev := 2, blockno := 3, valid := true, refcnt := 1 } 0 binitState).2
    (by decide)
  exact ⟨h1.1, h2.1⟩

/-! ## Page allocator lemmas -/

theorem getD_cons_lt {s : KState} {i r : Nat} {tail : List Nat}
    (h : s.getD i [] = r :: tail) : i < s.length := by
  by_contra hc
  rw [List.getD_eq_default _ _ (by omega)] at h
  exact List.noConfusion h

theorem mem_of_getD_cons {s : KState} {i r : Nat} {tail : List Nat}
    (h : s.getD i [] = r :: tail) : (r :: tail) ∈ s := by
  induction s generalizing i with
  | nil => simp [List.getD_nil] at h
  | cons a t ih =>
    cases i with
    | zero =>
      rw [List.getD_cons_zero] at h
      simp [h]
    | succ n =>
      rw [List.getD_cons_succ] at h
      simp [ih h]

theorem totalFree_set (s : KState) (i : Nat) (L : List Nat) (h : i < s.length) :
    totalFree (s.set i L) + (s.getD i []).length = totalFree s + L.length := by
  induction s generalizing i with
  | nil => simp at h
  | cons a t ih =>
    cases i with
    | zero =>
      simp [totalFree, List.set]
      omega
    | succ n =>
      have hn : n < t.length := by simpa using h
      have h2 := ih n hn
      simp only [List.set, totalFree, List.map_cons, List.sum_cons,
        List.getD_cons_succ] at h2 ⊢
      omega

theorem validPages_set {endAddr physTop : Nat} {s : KState} {i : Nat}
    {L : List Nat} (hv : ValidPages endAddr physTop s)
    (hL : ∀ pa ∈ L, pa % PGSIZE = 0 ∧ endAddr ≤ pa ∧ pa < physTop) :
    ValidPages endAddr physTop (s.set i L) := by
  intro l hl
  rcases List.mem_or_eq_of_mem_set hl with h | rfl
  · exact hv l h
  · exact hL

theorem validPages_getD {endAddr physTop : Nat} {s : KState}
    (hv : ValidPages endAddr physTop s) (i : Nat) :
    ∀ pa ∈ s.getD i [], pa % PGSIZE = 0 ∧ endAddr ≤ pa ∧ pa < physTop := by
  cases hq : s.getD i [] with
  | nil => simp
  | cons r tail =>
    intro pa hpa
    exact hv _ (mem_of_getD_cons hq) pa hpa

/-- The stealing loop fails when every probed list is empty. -/
theorem stealLoop_none (s : KState) :
    ∀ L, (∀ j ∈ L, s.getD j [] = []) → stealLoop s L = none := by
  intro L
  induction L with
  | nil => intro _; rfl
  | cons i rest ih =>
    intro h
    have hi := h i (by simp)
    simp only [stealLoop, hi]
    exact ih (fun j hj => h j (by simp [hj]))

/-- A successful steal pops the head of the first non-empty list in
probe order. -/
theorem stealLoop_split (s : KState) :
    ∀ (L : List Nat) (r : Nat) (s2 : KState), stealLoop s L = some (r, s2) →
    ∃ pre j rest tail, L = pre ++ j :: rest ∧
      (∀ k ∈ pre, s.getD k [] = []) ∧
      s.getD j [] = r :: tail ∧ s2 = s.set j tail := by
  intro L
  induction L with
  | nil => intro r s2 h; simp [stealLoop] at h
  | cons i rest ih =>
    intro r s2 h
    cases hq : s.getD i [] with
    | cons a tl =>
      refine ⟨[], i, rest, tl, by simp, by simp, ?_, ?_⟩
      · simp only [stealLoop, hq] at h
        rw [hq]
        have := (Prod.mk.injEq _ _ _ _).mp (Option.some_injective _ h)
        rw [this.1]
      · simp only [stealLoop, hq] at h
        have := (Prod.mk.injEq _ _ _ _).mp (Option.some_injective _ h)
        exact this.2.symm
    | nil =>
      have h2 : stealLoop s rest = some (r, s2) := by
        simp only [stealLoop, hq] at h
        exact h
      rcases ih r s2 h2 with ⟨pre, j, rest2, tail, hL, hpre, hget, hs2⟩
      refine ⟨i :: pre, j, rest2, tail, by simp [hL], ?_, hget, hs2⟩
      intro k hk
      rcases List.mem_cons.mp hk with rfl | hk2
      · exact hq
      · exact hpre k hk2

/-- A failed kalloc changes nothing. -/
theorem kalloc_none_spec (id : Nat) (s : KState) (m : Mem)
    (h : (kalloc id s m).1 = none) : kalloc id s m = (none, s, m) := by
  cases hq : s.getD id [] with
  | cons r rest =>
    simp only [kalloc, hq] at h
    exact Option.noConfusion h
  | nil =>
    cases hst : stealLoop s ((List.range s.length).filter (fun i => i != id)) with
    | some rs =>
      obtain ⟨r2, s2⟩ := rs
      simp only [kalloc, hq, hst] at h
      exact Option.noConfusion h
    | none => simp only [kalloc, hq, hst]

/-- A successful kalloc pops the head of some free list and fills the
page with the allocation sentinel. -/
theorem kalloc_some_spec (id : Nat) (s : KState) (m : Mem) (r : Nat)
    (h : (kalloc id s m).1 = some r) :
    ∃ j tail, j < s.length ∧ s.getD j [] = r :: tail ∧
      (kalloc id s m).2.1 = s.set j tail ∧
      (kalloc id s m).2.2 = memset m r 5 PGSIZE := by
  cases hq : s.getD id [] with
  | cons a rest =>
    have ha : a = r := by
      simp only [kalloc, hq] at h
      exact Option.some_injective _ h
    subst ha
    exact ⟨id, rest, getD_cons_lt hq, hq,
      by simp only [kalloc, hq], by simp only [kalloc, hq]⟩
  | nil =>
    cases hst : stealLoop s ((List.range s.length).filter (fun i => i != id)) with
    | none =>
      simp only [kalloc, hq, hst] at h
      exact Option.noConfusion h
    | some rs =>
      obtain ⟨r2, s2⟩ := rs
      have hr2 : r2 = r := by
        simp only [kalloc, hq, hst] at h
        exact Option.some_injective _ h
      subst hr2
      rcases stealLoop_split s _ r2 s2 hst with ⟨pre, j, rest2, tail, _, _, hget, hs2⟩
      refine ⟨j, tail, getD_cons_lt hget, hget, ?_, ?_⟩
      · simp only [kalloc, hq, hst]
        exact hs2
      · simp only [kalloc, hq, hst]

/-- The stealing loop succeeds when some probed list is non-empty. -/
theorem stealLoop_isSome (s : KState) :
    ∀ L, (∃ j ∈ L, s.getD j [] ≠ []) → stealLoop s L ≠ none := by
  intro L
  induction L with
  | nil =>
    intro h
    simp at h
  | cons i rest ih =>
    intro h hc
    cases hq : s.getD i [] with
    | cons a tl =>
      simp only [stealLoop, hq] at hc
      exact Option.noConfusion hc
    | nil =>
      simp only [stealLoop, hq] at hc
      rcases h with ⟨j, hj, hne⟩
      rcases List.mem_cons.mp hj with rfl | hj2
      · exact hne hq
      · exact ih ⟨j, hj2, hne⟩ hc

/-- C7: kalloc running on core id pops the head of the local free list
when it is non-empty; otherwise it takes the head of the first non-empty
list found probing the other cores in index order, and succeeds whenever
any other core has a page; every returned page is overwritten entirely
with the allocation sentinel byte 5; and when every core's list is empty
it returns the explicit no-memory result with nothing changed, rather
than aborting. -/
theorem c7_kalloc (id : Nat) (s : KState) (m : Mem) :
    (∀ r rest, s.getD id [] = r :: rest →
       kalloc id s m = (some r, s.set id rest, memset m r 5 PGSIZE)) ∧
    (s.getD id [] = [] → ∀ r, (kalloc id s m).1 = some r →
       ∃ pre j rest tail,
         (List.range s.length).filter (fun i => i != id) = pre ++ j :: rest ∧
         (∀ k ∈ pre, s.getD k [] = []) ∧
         s.getD j [] = r :: tail ∧
         (kalloc id s m).2.1 = s.set j tail ∧
         (kalloc id s m).2.2 = memset m r 5 PGSIZE) ∧
    (s.getD id [] = [] →
       (∃ j ∈ (List.range s.length).filter (fun i => i != id), s.getD j [] ≠ []) →
       (kalloc id s m).1 ≠ none) ∧
    ((∀ j, s.getD j [] = []) → kalloc id s m = (none, s, m)) ∧
    (∀ r, (kalloc id s m).1 = some r → ∀ off, off < PGSIZE →
       (kalloc id s m).2.2 (r + off) = 5) := by
  refine ⟨?_, ?_, ?_, ?_, ?_⟩
  · intro r rest h
    simp only [kalloc, h]
  · intro hq r hr
    cases hst : stealLoop s ((List.range s.length).filter (fun i => i != id)) with
    | none =>
      simp only [kalloc, hq, hst] at hr
      exact Option.noConfusion hr
    | some rs =>
      obtain ⟨r2, s2⟩ := rs
      have hr2 : r2 = r := by
        simp only [kalloc, hq, hst] at hr
        exact Option.some_injective _ hr
      subst hr2
      rcases stealLoop_split s _ r2 s2 hst with ⟨pre, j, rest2, tail, hL, hpre, hget, hs2⟩
      refine ⟨pre, j, rest2, tail, hL, hpre, hget, ?_, ?_⟩
      · simp only [kalloc, hq, hst]
        exact hs2
      · simp only [kalloc, hq, hst]
  · intro hq hex
    cases hst : stealLoop s ((List.range s.length).filter (fun i => i != id)) with
    | none => exact absurd hst (stealLoop_isSome s _ hex)
    | some rs =>
      obtain ⟨r2, s2⟩ := rs
      simp only [kalloc, hq, hst]
      exact Option.noConfusion
  · intro hall
    have hq : s.getD id [] = [] := hall id
    have hst : stealLoop s ((List.range s.length).filter (fun i => i != id)) = none :=
      stealLoop_none s _ (fun j _ => hall j)
    simp only [kalloc, hq, hst]
  · intro r hr off hoff
    rcases kalloc_some_spec id s m r hr with ⟨j, tail, _, _, _, hm2⟩
    rw [hm2]
    show (if r ≤ r + off ∧ r + off < r + PGSIZE then 5 else m (r + off)) = 5
    rw [if_pos ⟨Nat.le_add_right _ _, by omega⟩]

/-- C7 witness: on core 0 with an empty local list, kalloc steals the
head 8192 of core 1's list (the first non-empty peer in index order) and
fills the page with the sentinel byte 5; with all lists empty it returns
the no-memory result. -/
theorem c7_witness :
    (∃ pre j rest tail,
       (List.range ([[], [8192, 12288]] : KState).length).filter (fun i => i != 0) =
         pre ++ j :: rest ∧
       (∀ k ∈ pre, ([[], [8192, 12288]] : KState).getD k [] = []) ∧
       ([[], [8192, 12288]] : KState).getD j [] = 8192 :: tail ∧
       (kalloc 0 [[], [8192, 12288]] (fun _ => 0)).2.1 =
         ([[], [8192, 12288]] : KState).set j tail ∧
       (kalloc 0 [[], [8192, 12288]] (fun _ => 0)).2.2 =
         memset (fun _ => 0) 8192 5 PGSIZE) ∧
    (kalloc 0 [[], [8192, 12288]] (fun _ => 0)).2.2 (8192 + 100) = 5 ∧
    kalloc 0 [[], []] (fun _ => 0) = (none, [[], []], fun _ => 0) := by
  have h := c7_kalloc 0 [[], [8192, 12288]] (fun _ => 0)
  have h2 := c7_kalloc 0 [[], []] (fun _ => 0)
  refine ⟨h.2.1 (by decide) 8192 (by decide), ?_, ?_⟩
  · exact h.2.2.2.2 8192 (by decide) 100 (by decide)
  · exact h2.2.2.2.1 (fun j => by
      cases j with
      | zero => rfl
      | succ n =>
        cases n with
        | zero => rfl
        | succ k => rfl)

/-- C8: kfree(pa) on core id panics exactly when pa is not page-aligned,
or lies below the end of the reserved kernel image, or at/above the top
of the managed range; otherwise it overwrites the whole page with the
free sentinel byte 1 - distinct from the allocation sentinel 5 - and
pushes the page onto the freeing core's own list. -/
theorem c8_kfree (endAddr physTop id pa : Nat) (s : KState) (m : Mem) :
    (kfree endAddr physTop id pa s m = none ↔
      (pa % PGSIZE ≠ 0 ∨ pa < endAddr ∨ physTop ≤ pa)) ∧
    (¬(pa % PGSIZE ≠ 0 ∨ pa < endAddr ∨ physTop ≤ pa) →
      kfree endAddr physTop id pa s m =
        some (s.set id (pa :: s.getD id []), memset m pa 1 PGSIZE) ∧
      (∀ off, off < PGSIZE → memset m pa 1 PGSIZE (pa + off) = 1) ∧
      (1 : Nat) ≠ 5) := by
  constructor
  · constructor
    · intro h
      by_contra hc
      simp only [kfree, if_neg hc] at h
      exact Option.noConfusion h
    · intro h
      simp only [kfree, if_pos h]
  · intro h
    refine ⟨by simp only [kfree, if_neg h], ?_, by decide⟩
    intro off hoff
    show (if pa ≤ pa + off ∧ pa + off < pa + PGSIZE then 1 else m (pa + off)) = 1
    rw [if_pos ⟨Nat.le_add_right _ _, by omega⟩]

/-- C8 witness: freeing the aligned in-range page 8192 pushes it onto
core 0's list and fills it with the sentinel 1; freeing the misaligned
address 4095 panics. -/
theorem c8_witness :
    kfree 4096 40960 0 8192 [[]] (fun _ => 0) =
      some ([[8192]], memset (fun _ => 0) 8192 1 PGSIZE) ∧
    memset (fun _ => 0) 8192 1 PGSIZE (8192 + 200) = 1 ∧
    kfree 4096 40960 0 4095 [[]] (fun _ => 0) = none := by
  have h := c8_kfree 4096 40960 0 8192 [[]] (fun _ => 0)
  have h2 := c8_kfree 4096 40960 0 4095 [[]] (fun _ => 0)
  have hc : ¬((8192 : Nat) % PGSIZE ≠ 0 ∨ 8192 < 4096 ∨ 40960 ≤ 8192) := by decide
  refine ⟨(h.2 hc).1, (h.2 hc).2.1 200 (by decide), h2.1.mpr (by decide)⟩

/-- C9 counterexample: starting from core lists [[], [8192]] (lengths
[0, 1]), one matched pair - core 0 allocates (stealing page 8192 from
core 1) and core 0 frees that page - ends with lists [[8192], []]
(lengths [1, 0]): the freed page lands on the freeing core, so each
core's free-list length does NOT return to its starting value. -/
theorem c9_counterexample :
    (kalloc 0 [[], [8192]] (fun _ => 0)).1 = some 8192 ∧
    (kalloc 0 [[], [8192]] (fun _ => 0)).2.1 = [[], []] ∧
    Option.map Prod.fst
      (kfree 4096 40960 0 8192 [[], []] (memset (fun _ => 0) 8192 5 PGSIZE)) =
      some [[8192], []] ∧
    ([[8192], []] : KState).map List.length ≠
      ([[], [8192]] : KState).map List.length := by
  refine ⟨by decide, by decide, by decide, by decide⟩

/-- One matched allocate/free pair conserves the total number of free
pages, the page-validity invariant, and the number of cores. -/
theorem pairStep_spec (endAddr physTop : Nat) (s : KState) (m : Mem)
    (c : Nat × Nat) (hv : ValidPages endAddr physTop s) (hc : c.2 < s.length) :
    totalFree (pairStep endAddr physTop (s, m) c).1 = totalFree s ∧
    ValidPages endAddr physTop (pairStep endAddr physTop (s, m) c).1 ∧
    (pairStep endAddr physTop (s, m) c).1.length = s.length := by
  cases hr : (kalloc c.1 s m).1 with
  | none =>
    have heq := kalloc_none_spec c.1 s m hr
    rw [show pairStep endAddr physTop (s, m) c = (s, m) by simp only [pairStep, heq]]
    exact ⟨rfl, hv, rfl⟩
  | some r =>
    rcases kalloc_some_spec c.1 s m r hr with ⟨j, tail, hj, hget, hs1, hm1⟩
    have htup : kalloc c.1 s m = (some r, s.set j tail, memset m r 5 PGSIZE) := by
      rw [show kalloc c.1 s m =
        ((kalloc c.1 s m).1, (kalloc c.1 s m).2.1, (kalloc c.1 s m).2.2) from rfl,
        hr, hs1, hm1]
    have hrv := hv _ (mem_of_getD_cons hget) r (by simp)
    have hcond : ¬(r % PGSIZE ≠ 0 ∨ r < endAddr ∨ physTop ≤ r) := by
      push_neg
      exact ⟨hrv.1, hrv.2.1, hrv.2.2⟩
    have hkf : kfree endAddr physTop c.2 r (s.set j tail) (memset m r 5 PGSIZE) =
        some ((s.set j tail).set c.2 (r :: (s.set j tail).getD c.2 []),
              memset (memset m r 5 PGSIZE) r 1 PGSIZE) := by
      simp only [kfree, if_neg hcond]
    simp only [pairStep, htup, hkf]
    have hlen1 : (s.set j tail).length = s.length := List.length_set s j tail
    have hc1 : c.2 < (s.set j tail).length := by omega
    have ht1 := totalFree_set s j tail hj
    have ht2 := totalFree_set (s.set j tail) c.2 (r :: (s.set j tail).getD c.2 []) hc1
    have hv1 : ValidPages endAddr physTop (s.set j tail) := by
      refine validPages_set hv ?_
      intro pa hpa
      exact hv _ (mem_of_getD_cons hget) pa (by simp [hpa])
    refine ⟨?_, ?_, ?_⟩
    · rw [hget] at ht1
      simp only [List.length_cons] at ht1 ht2
      omega
    · refine validPages_set hv1 ?_
      intro pa hpa
      rcases List.mem_cons.mp hpa with rfl | h2
      · exact hrv
      · exact validPages_getD hv1 c.2 pa h2
    · rw [List.length_set, List.length_set]

/-- C9 (amended): for every sequence of matched allocate/free pairs over
cores of the machine, the TOTAL number of free pages summed over all
cores returns to its starting value (per-core lengths need not, because
a steal takes a page from a peer while the matching free returns it to
the freeing core). -/
theorem c9_total_preserved (endAddr physTop : Nat) (s : KState) (m : Mem)
    (cs : List (Nat × Nat)) (hv : ValidPages endAddr physTop s)
    (hcs : ∀ c ∈ cs, c.2 < s.length) :
    totalFree (runPairs endAddr physTop (s, m) cs).1 = totalFree s := by
  induction cs generalizing s m with
  | nil => rfl
  | cons c t ih =>
    have hspec := pairStep_spec endAddr physTop s m c hv (hcs c (by simp))
    have hstep := ih (pairStep endAddr physTop (s, m) c).1
      (pairStep endAddr physTop (s, m) c).2 hspec.2.1
      (fun c2 hc2 => by rw [hspec.2.2]; exact hcs c2 (by simp [hc2]))
    calc totalFree (runPairs endAddr physTop (s, m) (c :: t)).1
        = totalFree (runPairs endAddr physTop
            ((pairStep endAddr physTop (s, m) c).1,
             (pairStep endAddr physTop (s, m) c).2) t).1 := rfl
      _ = totalFree (pairStep endAddr physTop (s, m) c).1 := hstep
      _ = totalFree s := hspec.1

/-- C9 witness: the same steal-then-free pair used in the
counterexample conserves the total page count (1 page before, 1 after)
even though the per-core lengths change. -/
theorem c9_witness :
    totalFree (runPairs 4096 40960 ([[], [8192]], fun _ => 0) [(0, 0)]).1 =
      totalFree [[], [8192]] :=
  c9_total_preserved 4096 40960 [[], [8192]] (fun _ => 0) [(0, 0)]
    (by unfold ValidPages; decide) (by decide)

end XV6
